import Mathlib

/-!
# Verification of the pygrambank citation-resolution core (`srctok.py`, `sheet.py`)

This file gives a shallow embedding of the citation tokenizer, author
matcher, reference disambiguator and source resolver of
`pygrambank/srctok.py`, and of `Sheet.valid_row` from `pygrambank/sheet.py`,
together with theorems settling the specification claims about them.

Python regular expressions are embedded via a small regex AST (`RE`) with a
backtracking matcher that mirrors Python `re` semantics: ordered
alternation, greedy repetition with backtracking, leftmost search, and
last-wins capture groups.  Each pattern of the source is translated
node-by-node from its pattern string.

Python strings are modelled as Lean `String`/`List Char`; `str.find`,
`str.strip`, `str.replace`, `str.split`, `str.startswith` and `str.lower`
are re-implemented below with Python semantics (`.lower` is modelled for
ASCII letters, which covers all inputs appearing in the theorems).
-/

namespace Pygrambank

/-! ## Python string primitives -/

/-- Python `str.isspace` / the `\s` regex class (ASCII part). -/
def pyIsSpace (c : Char) : Bool :=
  c = ' ' || c = '\t' || c = '\n' || c = '\r' || c = '\x0b' || c = '\x0c'

/-- The `\d` regex class / Python `str.isdigit` (ASCII part). -/
def pyIsDigit (c : Char) : Bool := '0' ≤ c && c ≤ '9'

/-- Python `str.strip()` on a list of characters. -/
def listStrip (l : List Char) : List Char :=
  ((l.dropWhile pyIsSpace).reverse.dropWhile pyIsSpace).reverse

/-- Python `str.strip()`. -/
def pyStrip (s : String) : String := ⟨listStrip s.data⟩

/-- Python `hay.find(pat)`: index of the first occurrence of `pat` in
`hay`, `none` for Python's `-1`.  The empty pattern is found at index 0. -/
def pyFindSub (hay pat : List Char) : Option Nat :=
  match hay with
  | [] => if pat = [] then some 0 else none
  | _ :: t => if pat.isPrefixOf hay then some 0 else (pyFindSub t pat).map (· + 1)

/-- Python `s.startswith(pre)`. -/
def pyStartswith (s pre : List Char) : Bool := pre.isPrefixOf s

/-- Python `s.replace(pat, rep)` (all non-overlapping occurrences, left to
right); the empty pattern does not occur in the sources.  The fuel is the
remaining input length (one replacement consumes at least one character). -/
def listReplace (pat rep : List Char) : Nat → List Char → List Char
  | 0, l => l
  | _ + 1, [] => []
  | fuel + 1, c :: t =>
    if pat.isPrefixOf (c :: t) ∧ pat ≠ [] then
      rep ++ listReplace pat rep fuel ((c :: t).drop pat.length)
    else
      c :: listReplace pat rep fuel t

/-- Python `s.replace(pat, rep)`. -/
def pyReplace (s pat rep : String) : String :=
  ⟨listReplace pat.data rep.data s.data.length s.data⟩

/-- Python `s.split(sep)` for a non-empty separator, on lists. -/
def listSplit (sep : List Char) : Nat → List Char → List (List Char)
  | 0, l => [l]
  | _ + 1, [] => [[]]
  | fuel + 1, c :: t =>
    if sep.isPrefixOf (c :: t) ∧ sep ≠ [] then
      [] :: listSplit sep fuel ((c :: t).drop sep.length)
    else
      match listSplit sep fuel t with
      | [] => [[c]]
      | p :: ps => (c :: p) :: ps

/-- Python `s.split(sep)`. -/
def pySplit (s sep : String) : List String :=
  (listSplit sep.data (s.data.length + 1) s.data).map (⟨·⟩)

/-- Python `str.lower` (ASCII letters; sufficient for the inputs used). -/
def pyLower (s : String) : String := ⟨s.data.map Char.toLower⟩

/-! ## A backtracking regex engine with Python `re` semantics

`RE` is the abstract syntax of the fragment of Python regexes used in
`srctok.py` and `sheet.py`: character classes, concatenation, ordered
alternation, greedy star over a character class (every `*`/`+` in the
sources repeats a character class), greedy option `?`, capture groups,
single-character negative lookbehind, and the anchors `^`/`$`. -/

inductive RE where
  | eps : RE
  | bos : RE
  | eos : RE
  | cls (f : Char → Bool) : RE
  | cat (r₁ r₂ : RE) : RE
  | alt (r₁ r₂ : RE) : RE
  | starCls (f : Char → Bool) : RE
  | opt (r : RE) : RE
  | group (n : Nat) (r : RE) : RE
  | lkb (f : Char → Bool) : RE

/-- Capture list: `(group number, start, stop)`, most recent first. -/
abbrev Caps := List (Nat × Nat × Nat)

/-- Length of the maximal run of characters satisfying `f` from position
`i` — the amount a greedy `[f]*` consumes before backtracking. -/
def runLen (f : Char → Bool) (s : List Char) (i : Nat) : Nat :=
  ((s.drop i).takeWhile f).length

/-- All ways `r` can match at position `i` of `s` with capture list `c`,
as `(end position, captures)` pairs in backtracking priority order — the
head is the match Python's engine returns. -/
def RE.mtch (s : List Char) : RE → Nat → Caps → List (Nat × Caps)
  | .eps, i, c => [(i, c)]
  | .bos, i, c => if i = 0 then [(i, c)] else []
  | .eos, i, c =>
    if i = s.length ∨ (i + 1 = s.length ∧ s.get? i = some '\n') then [(i, c)] else []
  | .cls f, i, c =>
    match s.get? i with
    | some ch => if f ch then [(i + 1, c)] else []
    | none => []
  | .cat r₁ r₂, i, c => (RE.mtch s r₁ i c).flatMap (fun jc => RE.mtch s r₂ jc.1 jc.2)
  | .alt r₁ r₂, i, c => RE.mtch s r₁ i c ++ RE.mtch s r₂ i c
  | .starCls f, i, c =>
    (List.range (runLen f s i + 1)).reverse.map (fun k => (i + k, c))
  | .opt r, i, c => RE.mtch s r i c ++ [(i, c)]
  | .group n r, i, c =>
    (RE.mtch s r i c).map (fun jc => (jc.1, (n, i, jc.1) :: jc.2))
  | .lkb f, i, c =>
    if i = 0 then [(i, c)]
    else
      match s.get? (i - 1) with
      | some ch => if f ch then [] else [(i, c)]
      | none => [(i, c)]

/-- Python `pattern.match(s)` (anchored at position 0): the capture list of
the first match, if any. -/
def reMatch (r : RE) (s : List Char) : Option (Nat × Caps) :=
  (RE.mtch s r 0 []).head?

/-- Scan of `pattern.search(s)` starting at position `i` with `fuel`
positions left to try; returns `(start, end, captures)`. -/
def searchFrom (r : RE) (s : List Char) : Nat → Nat → Option (Nat × Nat × Caps)
  | 0, _ => none
  | fuel + 1, i =>
    match (RE.mtch s r i []).head? with
    | some jc => some (i, jc.1, jc.2)
    | none => searchFrom r s fuel (i + 1)

/-- Python `pattern.search(s)`: leftmost match. -/
def reSearch (r : RE) (s : List Char) : Option (Nat × Nat × Caps) :=
  searchFrom r s (s.length + 1) 0

/-- Capture span of group `n` (Python: last capture wins, hence the first
hit in the most-recent-first list). -/
def capLookup (c : Caps) (n : Nat) : Option (Nat × Nat) :=
  (c.find? (fun t => t.1 = n)).map (fun t => t.2)

/-- The substring of `s` from position `a` (inclusive) to `b` (exclusive). -/
def sliceStr (s : List Char) (a b : Nat) : String := ⟨(s.drop a).take (b - a)⟩

/-- Python `m.group(n)`: the text captured by group `n`, if it participated
in the match. -/
def groupStr (s : List Char) (c : Caps) (n : Nat) : Option String :=
  (capLookup c n).map (fun ab => sliceStr s ab.1 ab.2)

/-- Literal single character. -/
def RE.chr (c : Char) : RE := .cls (· = c)

/-- Literal character sequence. -/
def RE.lit (l : List Char) : RE := l.foldr (fun c r => .cat (.chr c) r) .eps

/-- `[f]+` — one or more characters of a class, greedy. -/
def RE.plus (f : Char → Bool) : RE := .cat (.cls f) (.starCls f)

/-- Python `re.split(pattern, s)`: non-overlapping leftmost matches act as
separators (none of the separator patterns in the sources can match the
empty string). -/
def reSplitFuel (r : RE) (s : List Char) : Nat → Nat → List (List Char)
  | 0, pos => [(s.drop pos)]
  | fuel + 1, pos =>
    match searchFrom r s (s.length + 1 - pos) pos with
    | none => [(s.drop pos)]
    | some (a, b, _) =>
      if b ≤ a then [(s.drop pos)]
      else ((s.drop pos).take (a - pos)) :: reSplitFuel r s fuel b

/-- Python `pattern.split(s)`. -/
def reSplit (r : RE) (s : List Char) : List String :=
  (reSplitFuel r s (s.length + 1) 0).map (⟨·⟩)

/-! ## The regex patterns of `srctok.py`

Group numbers: `a` = 1, `y` = 2, `p` = 3, matching the group order of each
pattern in the source. -/

/-- The class `[\d+\;\s\-etseqpassim\.]` of `repageonly`. -/
def clsPageOnly (c : Char) : Bool :=
  pyIsDigit c || c = '+' || c = ';' || pyIsSpace c || c = '-' ||
  c = 'e' || c = 't' || c = 's' || c = 'q' || c = 'p' || c = 'a' ||
  c = 'i' || c = 'm' || c = '.'

/-- `repageonly = re.compile("[\d+\;\s\-etseqpassim\.]+$")`. -/
def repageonly : RE := .cat (RE.plus clsPageOnly) .eos

/-- `repageonly.match(src)` is truthy (used in `source_to_refs`). -/
def repageonlyMatch (s : String) : Bool := (reMatch repageonly s.data).isSome

/-- The class `[\d\,\s\-]` of the pages group `p`. -/
def clsPg (c : Char) : Bool := pyIsDigit c || c = ',' || pyIsSpace c || c = '-'

/-- `pg = "(?:\:\s*(?P<p>[\d\,\s\-]+))?"`. -/
def pgRE : RE :=
  .opt (.cat (RE.chr ':') (.cat (.starCls pyIsSpace) (.group 3 (RE.plus clsPg))))

/-- `.` in a Python pattern: any character except a newline. -/
def anyNotNl : RE := .cls (· ≠ '\n')

/-- `year = "(?:\d\d\d\d|no date|n.d.|[Nn][Dd])"` (the dots of `n.d.` are
unescaped and match any character). -/
def yearRE : RE :=
  .alt (.cat (.cls pyIsDigit) (.cat (.cls pyIsDigit) (.cat (.cls pyIsDigit) (.cls pyIsDigit))))
    (.alt (RE.lit "no date".data)
      (.alt (.cat (RE.chr 'n') (.cat anyNotNl (.cat (RE.chr 'd') anyNotNl)))
        (.cat (.cls (fun c => c = 'N' || c = 'n')) (.cls (fun c => c = 'D' || c = 'd')))))

/-- `refullsrc = re.compile("^(?P<a>[^,]+)\,[^\(\d]+[\s\(](?P<y>)\s*" + pg + "\)?")`. -/
def refullsrc : RE :=
  .cat .bos
    (.cat (.group 1 (RE.plus (fun c => !(c = ','))))
      (.cat (RE.chr ',')
        (.cat (RE.plus (fun c => !(c = '(' || pyIsDigit c)))
          (.cat (.cls (fun c => pyIsSpace c || c = '('))
            (.cat (.group 2 .eps)
              (.cat (.starCls pyIsSpace)
                (.cat pgRE (.opt (RE.chr ')')))))))))

/-- The class `[ÅA-Z\x8e\x8f\x99\x9avd]` built from
`capitals = 'ÅA-Z\x8e\x8f\x99\x9a'` plus `v`, `d`. -/
def clsCapsVD (c : Char) : Bool :=
  c = 'Å' || ('A' ≤ c && c ≤ 'Z') || c = '\x8e' || c = '\x8f' ||
  c = '\x99' || c = '\x9a' || c = 'v' || c = 'd'

/-- `resrc = re.compile("(?P<a>(?<![^\s\(])[" + capitals +
"vd][a-z]*\D*[^\d\,\.])\.?\s\(?(?P<y>" + year + ")" + pg + "\)?")`. -/
def resrc : RE :=
  .cat
    (.group 1
      (.cat (.lkb (fun c => !(pyIsSpace c || c = '(')))
        (.cat (.cls clsCapsVD)
          (.cat (.starCls (fun c => 'a' ≤ c && c ≤ 'z'))
            (.cat (.starCls (fun c => !pyIsDigit c))
              (.cls (fun c => !(pyIsDigit c || c = ',' || c = '.'))))))))
    (.cat (.opt (RE.chr '.'))
      (.cat (.cls pyIsSpace)
        (.cat (.opt (RE.chr '('))
          (.cat (.group 2 yearRE)
            (.cat pgRE (.opt (RE.chr ')')))))))

/-- `altrefullsrc = re.compile("^(?P<a>[A-Z][a-zA-Z&]+)(?P<y>[0-9]{4}),\s+p\.\s*(?P<p>[\d,\s\-]+(?:ff?\.)?)$")`. -/
def altrefullsrc : RE :=
  .cat .bos
    (.cat (.group 1 (.cat (.cls (fun c => 'A' ≤ c && c ≤ 'Z'))
        (RE.plus (fun c => ('a' ≤ c && c ≤ 'z') || ('A' ≤ c && c ≤ 'Z') || c = '&'))))
      (.cat (.group 2 (.cat (.cls pyIsDigit) (.cat (.cls pyIsDigit) (.cat (.cls pyIsDigit) (.cls pyIsDigit)))))
        (.cat (RE.chr ',')
          (.cat (RE.plus pyIsSpace)
            (.cat (RE.chr 'p')
              (.cat (RE.chr '.')
                (.cat (.starCls pyIsSpace)
                  (.cat (.group 3 (.cat (RE.plus clsPg)
                      (.opt (.cat (RE.chr 'f') (.cat (.opt (RE.chr 'f')) (RE.chr '.'))))))
                    .eos))))))))

/-- `respa = re.compile("[\s\,\,\.\-]+")`. -/
def respa : RE := RE.plus (fun c => pyIsSpace c || c = ',' || c = '.' || c = '-')

/-- `resau = re.compile("\s*[\&\/]\s*| and ")`. -/
def resau : RE :=
  .alt (.cat (.starCls pyIsSpace) (.cat (.cls (fun c => c = '&' || c = '/')) (.starCls pyIsSpace)))
    (RE.lit " and ".data)

/-! ## The citation tokenizer `iter_ayps` -/

/-- A yielded `(a, y, p, word_from_title)` tuple of `iter_ayps`. -/
abbrev Ayp := String × String × Option String × Option String

/-- The test discarding a personal-communication segment:
`(x.find("p.c.") != -1) and x.strip().startswith("pc")`. -/
def pcDrop (x : String) : Bool :=
  (pyFindSub x.data "p.c.".data).isSome && pyStartswith (pyStrip x).data "pc".data

/-- The grammar cascade of `iter_ayps` on one (already stripped) segment:
try `refullsrc`, then `resrc`, then `altrefullsrc` (the condensed grammar,
whose author text has `&` expanded to `" and "`); return the `(a, y, p)`
group values of the first grammar that matches. -/
def segRaw (x : String) : Option (String × String × Option String) :=
  match reSearch refullsrc x.data with
  | some m =>
    some ((groupStr x.data m.2.2 1).getD "", (groupStr x.data m.2.2 2).getD "",
      groupStr x.data m.2.2 3)
  | none =>
    match reSearch resrc x.data with
    | some m =>
      some ((groupStr x.data m.2.2 1).getD "", (groupStr x.data m.2.2 2).getD "",
        groupStr x.data m.2.2 3)
    | none =>
      match reSearch altrefullsrc x.data with
      | some m =>
        some (pyReplace ((groupStr x.data m.2.2 1).getD "") "&" " and ",
          (groupStr x.data m.2.2 2).getD "", groupStr x.data m.2.2 3)
      | none => none

/-- The underscore handling of `iter_ayps`: `wft = a.find("_")`; on a hit
the text after the underscore (lower-cased) becomes the new
`word_from_title` and the author text is truncated before it. -/
def splitHint (a : String) (wft : Option String) : String × Option String :=
  match pyFindSub a.data "_".data with
  | none => (a, wft)
  | some k => (⟨a.data.take k⟩, some (pyLower ⟨a.data.drop (k + 1)⟩))

/-- `p.strip() if p else p`. -/
def pOut : Option String → Option String
  | none => none
  | some s => if s = "" then some "" else some (pyStrip s)

/-- One loop iteration of `iter_ayps` on segment `x` with the current
`word_from_title`: `none` when the segment parses under no grammar. -/
def fragOfSeg (x : String) (wft : Option String) : Option Ayp :=
  match segRaw (pyStrip x) with
  | none => none
  | some ayp =>
    let aw := splitHint ayp.1 wft
    some (aw.1, ayp.2.1, pOut ayp.2.2, aw.2)

/-- The loop of `iter_ayps` over the `";"`-separated segments, threading
`word_from_title` (which is only ever updated, never reset). -/
def iterAypsAux : List String → Option String → List Ayp
  | [], _ => []
  | x :: rest, wft =>
    if pcDrop x then iterAypsAux rest wft
    else
      match fragOfSeg x wft with
      | none => iterAypsAux rest wft
      | some f => f :: iterAypsAux rest f.2.2.2

/-- `iter_ayps(s)`: replace `"), "` by `"); "`, split on `";"`, and parse
each segment, threading the title-word hint. -/
def iter_ayps (s : String) : List Ayp :=
  iterAypsAux (pySplit (pyReplace s "), " "); ") ";") none

/-! ## The author matcher

`undiacritic` and `bib.pauthor` live outside the given sources
(`clldutils.misc.slug` and `pygrambank/bib.py`); they are modelled from the
spec below. -/

/-- Modelled from the spec: diacritic stripping (`undiacritic`, i.e.
`clldutils.misc.slug` with lowercasing and whitespace removal disabled — an
external collaborator absent from the sources): letters with diacritics
are replaced by their base letter, everything else is unchanged. -/
def undiacriticChar (c : Char) : Char :=
  if c = 'Å' then 'A'
  else if c = 'å' then 'a'
  else if c = 'é' then 'e'
  else if c = 'ö' then 'o'
  else if c = 'ü' then 'u'
  else c

/-- Modelled from the spec: see `undiacriticChar`. -/
def undiacritic (s : String) : String := ⟨s.data.map undiacriticChar⟩

/-- Modelled from the spec: the external bibliography-name parser
(`bib.pauthor`, absent from the sources) parses an author field into
author records carrying a `lastname`.  Author fields separate authors with
`" and "` and write each author as `"Lastname, Firstnames"`; the lastname
is the text before the first comma (the whole name when it contains no
comma). -/
def pauthorLastnames (s : String) : List String :=
  (pySplit s " and ").map (fun p => pyStrip ((pySplit p ",").headD p))

/-- `devon = ["De", "Da", "Van", "Von", "Van den", "Van der", "Von der"]`. -/
def devon : List String := ["De", "Da", "Van", "Von", "Van den", "Van der", "Von der"]

/-- `matchsingleauthor(ca, ba)`: the first token of `ca` (split on
whitespace/comma/period/hyphen runs) that is non-empty, starts with an
uppercase letter and is not a particle word must occur among the tokens of
`ba`. -/
def matchsingleauthor (ca ba : String) : Bool :=
  let firsttoken :=
    ((reSplit respa ca.data).filter
      (fun x => pyStrip x ≠ "" && (match x.data with | [] => false | c :: _ => c.isUpper)
        && !(devon.contains x))).headD ""
  (reSplit respa ba.data).contains firsttoken

/-- `matchauthor(a, fas, extraauthors)`: the first parsed lastname of the
extracted author string, diacritic-stripped, is split into clauses on
`&`/`/`/`" and "`; every clause must match some candidate surname (the
diacritic-stripped lastnames of the bibliography author field plus the
extra author names). -/
def matchauthor (a fas : String) (extraauthors : List String) : Bool :=
  let a' := undiacritic ((pauthorLastnames a).headD "")
  let bas := (pauthorLastnames fas).map undiacritic ++ extraauthors
  (reSplit resau a'.data).all (fun ca => bas.any (fun ba => matchsingleauthor ca ba))

/-! ## The reference disambiguator -/

/-- A bibliography entry, i.e. the dictionary `e[k][1]` of the source with
the fields read by `srctok.py`.  The type tags and language-of-description
codes are modelled from the spec (`bib.hhtype` and `bib.lgcodestr` are
absent from the sources): `type_tags` is the entry's list of type tags and
`inlg` the parsed list of language codes of its `inlg` field. -/
structure BibEntry where
  author : String := ""
  year : String := ""
  title : String := ""
  type_tags : List String := []
  inlg : List String := []
deriving DecidableEq, Repr

/-- Modelled from the spec: the priority pair of an entry —
`(max([bib.hhtype_to_n[z] for z in bib.hhtype(e[k][1])]),
bib.lgcodestr(e[k][1].get('inlg', "")) == ['eng'])`, where `rank` is the
external fixed table `bib.hhtype_to_n` mapping type tags to integers. -/
def prioPair (rank : String → Nat) (ent : BibEntry) : Nat × Bool :=
  ((ent.type_tags.map rank).foldl max 0, ent.inlg = ["eng"])

/-- Python `<=` on the `(type rank, is-English)` value pairs compared by
`amax` (tuple comparison: first components, then `False < True`). -/
def pairLeB (p q : Nat × Bool) : Bool :=
  p.1 < q.1 || (p.1 = q.1 && (!p.2 || q.2))

/-- Binary maximum under `pairLeB`. -/
def pairMaxB (p q : Nat × Bool) : Nat × Bool := if pairLeB p q then q else p

/-- `allmax(d)` restricted to its keys, for the dictionary
`{k : (rank, is_eng)}` built by `priok`: the keys whose value equals the
maximum value (`amax` compares `(value, key)` pairs lexicographically, so
the maximal pair's value component is the maximum value; `filterd` then
keeps every key attaining it).  An empty dictionary yields `{}`. -/
def allmaxKeys (d : List (String × (Nat × Bool))) : List String :=
  match d with
  | [] => []
  | (k₀, v₀) :: rest =>
    let m := (rest.map (fun kv => kv.2)).foldl pairMaxB v₀
    (((k₀, v₀) :: rest).filter (fun kv => kv.2 = m)).map (fun kv => kv.1)

/-- `priok(ks, e)`: the keys of `ks` whose priority pair is maximal. -/
def priok (rank : String → Nat) (ks : List String) (e : String → BibEntry) : List String :=
  allmaxKeys (ks.map (fun k => (k, prioPair rank (e k))))

/-- The filter of `iter_key_pages`: the entry's year contains the
fragment's year text, the (lower-cased) title contains the title-word hint
when one is set and non-empty, and the author field matches. -/
def keyFilter (extra : String → List String) (ayp : Ayp) (e : String → BibEntry)
    (k : String) : Bool :=
  (pyFindSub (e k).year.data ayp.2.1.data).isSome &&
  (match ayp.2.2.2 with
   | none => true
   | some w => w = "" || (pyFindSub (pyLower (e k).title).data w.data).isSome) &&
  matchauthor ayp.1 (e k).author (extra k)

/-- `iter_key_pages(lg, ayp, e, lgks)`: when `lg` is in the language
index, yield `(k, pages)` for every key of the priority-maximal set of the
filtered candidates.  `extra` models `bib.iter_authors` (absent from the
sources): the additional known co-author surnames of a bibliography key. -/
def iter_key_pages (rank : String → Nat) (extra : String → List String)
    (lg : String) (ayp : Ayp) (e : String → BibEntry)
    (lgks : String → Option (List String)) : List (String × Option String) :=
  match lgks lg with
  | none => []
  | some ks =>
    (priok rank (ks.filter (keyFilter extra ayp e)) e).map (fun k => (k, ayp.2.2.1))

/-! ## The source resolver `source_to_refs` -/

/-- An element of the `unresolved` accumulator: either an
`(author, year, language id)` triple or a `(source string, language id)`
pair. -/
inductive Unres where
  | ayl (a y lgid : String) : Unres
  | sl (src lgid : String) : Unres
deriving DecidableEq, Repr

/-- `set.update`: add each element not already present. -/
def updateUnres (u : List Unres) (new : List Unres) : List Unres :=
  new.foldl (fun acc x => if acc.contains x then acc else acc ++ [x]) u

/-- Comparison key `(r[0], r[1] or '')` used to sort the reference pairs. -/
def refSortKey (r : String × Option String) : String × String := (r.1, r.2.getD "")

/-- `a <= b` for the sort of the reference pairs (lexicographic on the
string pair). -/
def refLeB (a b : String × Option String) : Bool :=
  (refSortKey a).1 < (refSortKey b).1 ||
  ((refSortKey a).1 = (refSortKey b).1 && !((refSortKey b).2 < (refSortKey a).2))

/-- Insertion sort of the deduplicated reference pairs by `refLeB` —
`sorted(set(...), key=lambda r: (r[0], r[1] or ''))`. -/
def insertRef (x : String × Option String) :
    List (String × Option String) → List (String × Option String)
  | [] => [x]
  | y :: t => if refLeB x y then x :: y :: t else y :: insertRef x t

/-- See `insertRef`. -/
def sortRefs (l : List (String × Option String)) : List (String × Option String) :=
  l.foldr insertRef []

/-- The sorted, deduplicated `(key, pages)` pairs collected over all
fragments of the source field. -/
def refPairs (rank : String → Nat) (extra : String → List String) (src lgid : String)
    (e : String → BibEntry) (lgks : String → Option (List String)) :
    List (String × Option String) :=
  sortRefs (((iter_ayps src).flatMap
    (fun s => iter_key_pages rank extra lgid s e lgks)).dedup)

/-- `itertools.groupby` over the sorted pairs followed by
`nfilter` (dropping `None` and empty pages):
`[(k, nfilter(r[1] for r in rs)) for k, rs in groupby(refs, lambda r: r[0])]`. -/
def groupRefsFuel : Nat → List (String × Option String) → List (String × List String)
  | 0, _ => []
  | _ + 1, [] => []
  | fuel + 1, (k, p) :: rest =>
    let same := rest.takeWhile (fun r => r.1 = k)
    (k, (((k, p) :: same).map (fun r => r.2)).reduceOption.filter (fun s => s ≠ "")) ::
      groupRefsFuel fuel (rest.dropWhile (fun r => r.1 = k))

/-- See `groupRefsFuel`; the fuel is the list length (each group consumes
at least one pair). -/
def groupRefs (l : List (String × Option String)) : List (String × List String) :=
  groupRefsFuel l.length l

/-- The condition of the `elif` deciding that the whole string becomes the
source comment: `not (src.find("p.c") == -1 and ... and not
src.startswith("http"))` — some work-in-progress/unavailable marker is
present or the string is a URL. -/
def commentCond (src : String) : Bool :=
  !((pyFindSub src.data "p.c".data).isNone &&
    (pyFindSub src.data "personal communication".data).isNone &&
    (pyFindSub src.data "ieldnotes".data).isNone &&
    (pyFindSub src.data "ield notes".data).isNone &&
    (pyFindSub src.data "forth".data).isNone &&
    (pyFindSub src.data "Forth".data).isNone &&
    (pyFindSub src.data "ubmitted".data).isNone &&
    (pyFindSub src.data "o appear".data).isNone &&
    (pyFindSub src.data "in press".data).isNone &&
    (pyFindSub src.data "in prep".data).isNone &&
    (pyFindSub src.data "in prog".data).isNone &&
    !(pyStartswith src.data "http".data))

/-- `source_to_refs(src, lgid, e, lgks, unresolved)`; the mutated
`unresolved` set is returned as the third component.  When no reference
resolves: a page-numbers-only string only triggers a printed diagnostic
(neither comment nor unresolved entry); otherwise a string with a
work-in-progress marker or URL becomes the source comment; otherwise the
extracted `(author, year, lgid)` triples — or `(src, lgid)` when nothing
was extracted — are added to `unresolved`. -/
def source_to_refs (rank : String → Nat) (extra : String → List String)
    (src lgid : String) (e : String → BibEntry) (lgks : String → Option (List String))
    (unresolved : List Unres) :
    List (String × List String) × Option String × List Unres :=
  let ays := iter_ayps src
  let refs := refPairs rank extra src lgid e lgks
  if refs = [] then
    if repageonlyMatch src then (groupRefs refs, none, unresolved)
    else if commentCond src then (groupRefs refs, some src, unresolved)
    else if ays ≠ [] then
      (groupRefs refs, none,
        updateUnres unresolved (ays.map (fun ay => Unres.ayl ay.1 ay.2.1 lgid)))
    else (groupRefs refs, none, updateUnres unresolved [Unres.sl src lgid])
  else (groupRefs refs, none, unresolved)

/-! ## `Sheet.valid_row` from `sheet.py` -/

/-- A sheet row restricted to the cells `valid_row` reads (a row of a
sheet whose header contains the four mandatory columns; a missing or
`None` cell is the empty string, matching Python truthiness). -/
structure SheetRow where
  Feature_ID : String
  Value : String
  Source : String
  Comment : String
deriving DecidableEq, Repr

/-- The pattern `'GB[0-9]{3}|(GBDRS.+)|TE[0-9]+|TS[0-9]+$'` checked with
`re.match` against the Feature_ID. -/
def fidRE : RE :=
  .alt (.cat (RE.lit "GB".data) (.cat (.cls pyIsDigit) (.cat (.cls pyIsDigit) (.cls pyIsDigit))))
    (.alt (.group 1 (.cat (RE.lit "GBDRS".data) (.cat anyNotNl (.starCls (fun c => c ≠ '\n')))))
      (.alt (.cat (RE.lit "TE".data) (RE.plus pyIsDigit))
        (.cat (RE.lit "TS".data) (.cat (RE.plus pyIsDigit) .eos))))

/-- `Sheet.valid_row(row, api, log, features)`: the returned validity flag
together with the `(level, message)` pairs passed to `log`, in emission
order.  `apiF` models `api.features` as a map from feature id to the
feature's value domain; `features` is the set of feature ids already seen
in the sheet. -/
def valid_row (row : SheetRow) (apiF : String → Option (List String))
    (features : List String) : Bool × List (String × String) :=
  if row.Feature_ID = "" then (false, [])
  else
    let l₁ : List (String × String) :=
      if (reMatch fidRE row.Feature_ID.data).isNone ∧ row.Value ≠ "" then
        [("ERROR", "invalid Feature_ID: " ++ row.Feature_ID)]
      else []
    let r₁ : Bool := (reMatch fidRE row.Feature_ID.data).isSome
    match apiF row.Feature_ID with
    | none => (false, l₁)
    | some domain =>
      let badValue : Bool := row.Value ≠ "" ∧ row.Value ≠ "?" ∧ ¬ domain.contains row.Value
      let l₂ : List (String × String) :=
        if badValue then [("ERROR", "invalid value " ++ row.Value)] else []
      let r₂ : Bool := row.Value ≠ "" ∧ ¬ badValue
      let b₃ : Bool := row.Value ≠ "" ∧ row.Source = ""
      let l₃ : List (String × String) := if b₃ then [("WARNING", "value without source")] else []
      let b₄ : Bool := row.Source ≠ "" ∧ row.Value = ""
      let l₄ : List (String × String) :=
        if b₄ then [("WARNING", "source given, but no value")] else []
      let b₅ : Bool := row.Comment ≠ "" ∧ row.Value = ""
      let l₅ : List (String × String) :=
        if b₅ then [("WARNING", "comment given, but no value")] else []
      let b₆ : Bool := features.contains row.Feature_ID
      let l₆ : List (String × String) :=
        if b₆ then [("ERROR", "duplicate value for feature " ++ row.Feature_ID)] else []
      (r₁ && r₂ && !b₃ && !b₄ && !b₅ && !b₆, l₁ ++ l₂ ++ l₃ ++ l₄ ++ l₅ ++ l₆)

/-! ## Auxiliary definitions for the claim statements and witnesses -/

/-- Exactly one of three alternatives holds. -/
def ExactlyOne (a b c : Prop) : Prop :=
  (a ∧ ¬b ∧ ¬c) ∨ (¬a ∧ b ∧ ¬c) ∨ (¬a ∧ ¬b ∧ c)

/-- The author matcher as claim C6 words it: split the whole extracted
author string (not just its first parsed lastname) on `&`, `/` or
`" and "` into clauses; every clause's selected token must occur among the
candidate surnames.  This follows the claim's words, for comparison with
`matchauthor` as translated from the source. -/
def matchauthor_claimC6 (a fas : String) (extraauthors : List String) : Bool :=
  let a' := undiacritic a
  let bas := (pauthorLastnames fas).map undiacritic ++ extraauthors
  (reSplit resau a'.data).all (fun ca => bas.any (fun ba => matchsingleauthor ca ba))

/-- The `(a, y, p)` group triple a single grammar extracts from a
segment, before any `&` expansion (used to state grammar precedence). -/
def grammarGroups (r : RE) (x : String) : Option (String × String × Option String) :=
  (reSearch r x.data).map
    (fun m => ((groupStr x.data m.2.2 1).getD "", (groupStr x.data m.2.2 2).getD "",
      groupStr x.data m.2.2 3))

/-- A trivial type-tag ranking for witnesses: grammars above everything
else. -/
def rankW : String → Nat := fun t => if t = "grammar" then 2 else 1

/-- No extra co-author surnames (witness fixture). -/
def extraW : String → List String := fun _ => []

/-- An empty bibliography (witness fixture). -/
def eEmpty : String → BibEntry := fun _ => {}

/-- A language index with an empty candidate set for every language
(witness fixture). -/
def lgksEmpty : String → Option (List String) := fun _ => some []

/-- Three candidate entries with type ranks 1, 2, 2 and language-of-
description English, German, English — the disambiguation example of the
spec (witness fixture). -/
def eC5 : String → BibEntry := fun k =>
  if k = "k1" then
    { author := "Smith, A.", year := "1990", title := "Notes", type_tags := ["squib"], inlg := ["eng"] }
  else if k = "k2" then
    { author := "Smith, A.", year := "1990", title := "Grammar", type_tags := ["grammar"], inlg := ["deu"] }
  else if k = "k3" then
    { author := "Smith, A.", year := "1990", title := "Grammar", type_tags := ["grammar"], inlg := ["eng"] }
  else {}

/-- Language index for the `eC5` fixture. -/
def lgksC5 : String → Option (List String) := fun l =>
  if l = "lg" then some ["k1", "k2", "k3"] else none

/-- A sheet row with a value but no source (witness fixture). -/
def rowW : SheetRow := ⟨"GB020", "1", "", ""⟩

/-- A one-feature catalog (witness fixture). -/
def apiW : String → Option (List String) := fun f =>
  if f = "GB020" then some ["0", "1"] else none

/-! ## Structural facts about the regex engine

These lemmas relate a successful match to its capture spans: positions
only move forward, a pattern that must consume a character moves strictly
forward, captures of a group wrapping the empty pattern span nothing, and
captures of a group wrapping a pattern that must consume a character are
non-empty.  They settle the claims about the degenerate year group of
`refullsrc` and about the (non-)emptiness of extracted fragments. -/

/-- `r.minOne = true` guarantees every match of `r` consumes at least one
character. -/
def RE.minOne : RE → Bool
  | .cls _ => true
  | .cat r₁ r₂ => r₁.minOne || r₂.minOne
  | .alt r₁ r₂ => r₁.minOne && r₂.minOne
  | .group _ r => r.minOne
  | _ => false

/-- Syntactic test for the empty pattern. -/
def RE.isEps : RE → Bool
  | .eps => true
  | _ => false

/-- Every capture group numbered `n` inside `r` wraps the empty pattern. -/
def RE.epsGroups (n : Nat) : RE → Bool
  | .cat r₁ r₂ => r₁.epsGroups n && r₂.epsGroups n
  | .alt r₁ r₂ => r₁.epsGroups n && r₂.epsGroups n
  | .opt r => r.epsGroups n
  | .group m r => (if m = n then r.isEps else true) && r.epsGroups n
  | _ => true

/-- Every capture group numbered `n` inside `r` wraps a pattern that must
consume at least one character. -/
def RE.fatGroups (n : Nat) : RE → Bool
  | .cat r₁ r₂ => r₁.fatGroups n && r₂.fatGroups n
  | .alt r₁ r₂ => r₁.fatGroups n && r₂.fatGroups n
  | .opt r => r.fatGroups n
  | .group m r => (if m = n then r.minOne else true) && r.fatGroups n
  | _ => true

/-- Every successful match of `r` records a capture for group `n`. -/
def RE.mustGroup (n : Nat) : RE → Bool
  | .cat r₁ r₂ => r₁.mustGroup n || r₂.mustGroup n
  | .alt r₁ r₂ => r₁.mustGroup n && r₂.mustGroup n
  | .group m r => (m = n) || r.mustGroup n
  | _ => false

theorem RE.eq_eps_of_isEps {r : RE} (h : r.isEps = true) : r = .eps := by
  cases r <;> simp [RE.isEps] at h ⊢

theorem runLen_le (f : Char → Bool) (s : List Char) (i : Nat) :
    i + runLen f s i ≤ i + (s.length - i) := by
  have h₁ : runLen f s i ≤ (s.drop i).length :=
    (List.takeWhile_sublist f).length_le
  simp only [List.length_drop] at h₁
  omega

theorem lt_length_of_get?_eq_some {l : List Char} {i : Nat} {a : Char}
    (h : l.get? i = some a) : i < l.length := by
  by_contra hh
  push_neg at hh
  rw [List.get?_eq_none.mpr hh] at h
  cases h

/-- A match never moves the position backwards, never past the end of the
string, and moves strictly forward when `r.minOne` holds. -/
theorem mtch_bounds (s : List Char) (r : RE) :
    ∀ (i : Nat) (c : Caps) (j : Nat) (c' : Caps), i ≤ s.length →
      (j, c') ∈ RE.mtch s r i c → i ≤ j ∧ j ≤ s.length ∧ (r.minOne = true → i < j) := by
  induction r with
  | eps =>
    intro i c j c' hi h
    simp only [RE.mtch, List.mem_singleton, Prod.mk.injEq] at h
    exact ⟨h.1.ge, h.1.trans_le hi, by simp [RE.minOne]⟩
  | bos =>
    intro i c j c' hi h
    simp only [RE.mtch] at h
    by_cases h0 : i = 0
    · rw [if_pos h0] at h
      simp only [List.mem_singleton, Prod.mk.injEq] at h
      exact ⟨h.1.ge, h.1.trans_le hi, by simp [RE.minOne]⟩
    · rw [if_neg h0] at h
      exact absurd h (List.not_mem_nil _)
  | eos =>
    intro i c j c' hi h
    simp only [RE.mtch] at h
    by_cases h0 : i = s.length ∨ (i + 1 = s.length ∧ s.get? i = some '\n')
    · rw [if_pos h0] at h
      simp only [List.mem_singleton, Prod.mk.injEq] at h
      exact ⟨h.1.ge, h.1.trans_le hi, by simp [RE.minOne]⟩
    · rw [if_neg h0] at h
      exact absurd h (List.not_mem_nil _)
  | cls f =>
    intro i c j c' hi h
    simp only [RE.mtch] at h
    cases hg : s.get? i with
    | none => rw [hg] at h; exact absurd h (List.not_mem_nil _)
    | some ch =>
      rw [hg] at h
      dsimp only at h
      by_cases hf : f ch = true
      · rw [if_pos hf] at h
        simp only [List.mem_singleton, Prod.mk.injEq] at h
        have hlt : i < s.length := lt_length_of_get?_eq_some hg
        obtain ⟨h₁, -⟩ := h
        exact ⟨by omega, by omega, fun _ => by omega⟩
      · rw [if_neg hf] at h
        exact absurd h (List.not_mem_nil _)
  | cat r₁ r₂ ih₁ ih₂ =>
    intro i c j c' hi h
    simp only [RE.mtch, List.mem_flatMap] at h
    obtain ⟨⟨j₁, c₁⟩, h₁, h₂⟩ := h
    obtain ⟨hle₁, hlen₁, hmin₁⟩ := ih₁ i c j₁ c₁ hi h₁
    obtain ⟨hle₂, hlen₂, hmin₂⟩ := ih₂ j₁ c₁ j c' hlen₁ h₂
    refine ⟨le_trans hle₁ hle₂, hlen₂, ?_⟩
    intro hm
    simp only [RE.minOne, Bool.or_eq_true] at hm
    rcases hm with hm | hm
    · exact lt_of_lt_of_le (hmin₁ hm) hle₂
    · exact lt_of_le_of_lt hle₁ (hmin₂ hm)
  | alt r₁ r₂ ih₁ ih₂ =>
    intro i c j c' hi h
    simp only [RE.mtch, List.mem_append] at h
    rcases h with h | h
    · obtain ⟨h₁, h₂, h₃⟩ := ih₁ i c j c' hi h
      exact ⟨h₁, h₂, fun hm => h₃ (by simp only [RE.minOne, Bool.and_eq_true] at hm; exact hm.1)⟩
    · obtain ⟨h₁, h₂, h₃⟩ := ih₂ i c j c' hi h
      exact ⟨h₁, h₂, fun hm => h₃ (by simp only [RE.minOne, Bool.and_eq_true] at hm; exact hm.2)⟩
  | starCls f =>
    intro i c j c' hi h
    simp only [RE.mtch, List.mem_map, List.mem_reverse, List.mem_range] at h
    obtain ⟨k, hk, heq⟩ := h
    injection heq with hj hc
    have hr := runLen_le f s i
    exact ⟨by omega, by omega, by simp [RE.minOne]⟩
  | opt r ih =>
    intro i c j c' hi h
    simp only [RE.mtch, List.mem_append, List.mem_singleton, Prod.mk.injEq] at h
    rcases h with h | h
    · obtain ⟨h₁, h₂, -⟩ := ih i c j c' hi h
      exact ⟨h₁, h₂, by simp [RE.minOne]⟩
    · exact ⟨h.1.ge, h.1.trans_le hi, by simp [RE.minOne]⟩
  | group n r ih =>
    intro i c j c' hi h
    simp only [RE.mtch, List.mem_map] at h
    obtain ⟨⟨j₁, c₁⟩, h₁, heq⟩ := h
    injection heq with hj hc
    obtain ⟨h₂, h₃, h₄⟩ := ih i c j₁ c₁ hi h₁
    exact hj ▸ ⟨h₂, h₃, fun hm => h₄ (by simpa [RE.minOne] using hm)⟩
  | lkb f =>
    intro i c j c' hi h
    simp only [RE.mtch] at h
    by_cases h0 : i = 0
    · rw [if_pos h0] at h
      simp only [List.mem_singleton, Prod.mk.injEq] at h
      exact ⟨h.1.ge, h.1.trans_le hi, by simp [RE.minOne]⟩
    · rw [if_neg h0] at h
      cases hg : s.get? (i - 1) with
      | none =>
        rw [hg] at h
        dsimp only at h
        simp only [List.mem_singleton, Prod.mk.injEq] at h
        exact ⟨h.1.ge, h.1.trans_le hi, by simp [RE.minOne]⟩
      | some ch =>
        rw [hg] at h
        dsimp only at h
        by_cases hf : f ch = true
        · rw [if_pos hf] at h
          exact absurd h (List.not_mem_nil _)
        · rw [if_neg hf] at h
          simp only [List.mem_singleton, Prod.mk.injEq] at h
          exact ⟨h.1.ge, h.1.trans_le hi, by simp [RE.minOne]⟩

/-- Matching only adds capture entries. -/
theorem mtch_caps_mono (s : List Char) (r : RE) :
    ∀ (i : Nat) (c : Caps) (j : Nat) (c' : Caps),
      (j, c') ∈ RE.mtch s r i c → ∀ t ∈ c, t ∈ c' := by
  induction r with
  | eps =>
    intro i c j c' h
    simp only [RE.mtch, List.mem_singleton, Prod.mk.injEq] at h
    exact h.2 ▸ fun t ht => ht
  | bos =>
    intro i c j c' h
    simp only [RE.mtch] at h
    by_cases h0 : i = 0
    · rw [if_pos h0] at h
      simp only [List.mem_singleton, Prod.mk.injEq] at h
      exact h.2 ▸ fun t ht => ht
    · rw [if_neg h0] at h
      exact absurd h (List.not_mem_nil _)
  | eos =>
    intro i c j c' h
    simp only [RE.mtch] at h
    by_cases h0 : i = s.length ∨ (i + 1 = s.length ∧ s.get? i = some '\n')
    · rw [if_pos h0] at h
      simp only [List.mem_singleton, Prod.mk.injEq] at h
      exact h.2 ▸ fun t ht => ht
    · rw [if_neg h0] at h
      exact absurd h (List.not_mem_nil _)
  | cls f =>
    intro i c j c' h
    simp only [RE.mtch] at h
    cases hg : s.get? i with
    | none => rw [hg] at h; exact absurd h (List.not_mem_nil _)
    | some ch =>
      rw [hg] at h
      dsimp only at h
      by_cases hf : f ch = true
      · rw [if_pos hf] at h
        simp only [List.mem_singleton, Prod.mk.injEq] at h
        exact h.2 ▸ fun t ht => ht
      · rw [if_neg hf] at h
        exact absurd h (List.not_mem_nil _)
  | cat r₁ r₂ ih₁ ih₂ =>
    intro i c j c' h
    simp only [RE.mtch, List.mem_flatMap] at h
    obtain ⟨⟨j₁, c₁⟩, h₁, h₂⟩ := h
    exact fun t ht => ih₂ j₁ c₁ j c' h₂ t (ih₁ i c j₁ c₁ h₁ t ht)
  | alt r₁ r₂ ih₁ ih₂ =>
    intro i c j c' h
    simp only [RE.mtch, List.mem_append] at h
    rcases h with h | h
    · exact ih₁ i c j c' h
    · exact ih₂ i c j c' h
  | starCls f =>
    intro i c j c' h
    simp only [RE.mtch, List.mem_map, List.mem_reverse, List.mem_range] at h
    obtain ⟨k, -, heq⟩ := h
    injection heq with hj hc
    exact hc ▸ fun t ht => ht
  | opt r ih =>
    intro i c j c' h
    simp only [RE.mtch, List.mem_append, List.mem_singleton, Prod.mk.injEq] at h
    rcases h with h | h
    · exact ih i c j c' h
    · exact h.2 ▸ fun t ht => ht
  | group n r ih =>
    intro i c j c' h
    simp only [RE.mtch, List.mem_map] at h
    obtain ⟨⟨j₁, c₁⟩, h₁, heq⟩ := h
    injection heq with hj hc
    exact hc ▸ fun t ht => List.mem_cons_of_mem _ (ih i c j₁ c₁ h₁ t ht)
  | lkb f =>
    intro i c j c' h
    simp only [RE.mtch] at h
    by_cases h0 : i = 0
    · rw [if_pos h0] at h
      simp only [List.mem_singleton, Prod.mk.injEq] at h
      exact h.2 ▸ fun t ht => ht
    · rw [if_neg h0] at h
      cases hg : s.get? (i - 1) with
      | none =>
        rw [hg] at h
        dsimp only at h
        simp only [List.mem_singleton, Prod.mk.injEq] at h
        exact h.2 ▸ fun t ht => ht
      | some ch =>
        rw [hg] at h
        dsimp only at h
        by_cases hf : f ch = true
        · rw [if_pos hf] at h
          exact absurd h (List.not_mem_nil _)
        · rw [if_neg hf] at h
          simp only [List.mem_singleton, Prod.mk.injEq] at h
          exact h.2 ▸ fun t ht => ht

/-- Every capture entry of a match is either inherited from the incoming
capture list or spans a well-bounded part of the matched region; a capture
of a group number whose groups all wrap the empty pattern is empty, and a
capture of a group number whose groups all must consume input is
non-empty. -/
theorem mtch_caps (s : List Char) (r : RE) :
    ∀ (i : Nat) (c : Caps) (j : Nat) (c' : Caps), i ≤ s.length →
      (j, c') ∈ RE.mtch s r i c → ∀ n a b : Nat, (n, a, b) ∈ c' →
        (n, a, b) ∈ c ∨
          (i ≤ a ∧ a ≤ b ∧ b ≤ j ∧
            (r.epsGroups n = true → a = b) ∧ (r.fatGroups n = true → a < b)) := by
  induction r with
  | eps =>
    intro i c j c' hi h n a b hm
    simp only [RE.mtch, List.mem_singleton, Prod.mk.injEq] at h
    exact Or.inl (h.2 ▸ hm)
  | bos =>
    intro i c j c' hi h n a b hm
    simp only [RE.mtch] at h
    by_cases h0 : i = 0
    · rw [if_pos h0] at h
      simp only [List.mem_singleton, Prod.mk.injEq] at h
      exact Or.inl (h.2 ▸ hm)
    · rw [if_neg h0] at h
      exact absurd h (List.not_mem_nil _)
  | eos =>
    intro i c j c' hi h n a b hm
    simp only [RE.mtch] at h
    by_cases h0 : i = s.length ∨ (i + 1 = s.length ∧ s.get? i = some '\n')
    · rw [if_pos h0] at h
      simp only [List.mem_singleton, Prod.mk.injEq] at h
      exact Or.inl (h.2 ▸ hm)
    · rw [if_neg h0] at h
      exact absurd h (List.not_mem_nil _)
  | cls f =>
    intro i c j c' hi h n a b hm
    simp only [RE.mtch] at h
    cases hg : s.get? i with
    | none => rw [hg] at h; exact absurd h (List.not_mem_nil _)
    | some ch =>
      rw [hg] at h
      dsimp only at h
      by_cases hf : f ch = true
      · rw [if_pos hf] at h
        simp only [List.mem_singleton, Prod.mk.injEq] at h
        exact Or.inl (h.2 ▸ hm)
      · rw [if_neg hf] at h
        exact absurd h (List.not_mem_nil _)
  | cat r₁ r₂ ih₁ ih₂ =>
    intro i c j c' hi h n a b hm
    simp only [RE.mtch, List.mem_flatMap] at h
    obtain ⟨⟨j₁, c₁⟩, h₁, h₂⟩ := h
    obtain ⟨hle₁, hlen₁, -⟩ := mtch_bounds s r₁ i c j₁ c₁ hi h₁
    obtain ⟨hle₂, hlen₂, -⟩ := mtch_bounds s r₂ j₁ c₁ j c' hlen₁ h₂
    rcases ih₂ j₁ c₁ j c' hlen₁ h₂ n a b hm with hc₁ | hb
    · rcases ih₁ i c j₁ c₁ hi h₁ n a b hc₁ with hc | hb
      · exact Or.inl hc
      · refine Or.inr ⟨hb.1, hb.2.1, le_trans hb.2.2.1 hle₂, ?_, ?_⟩
        · intro he
          simp only [RE.epsGroups, Bool.and_eq_true] at he
          exact hb.2.2.2.1 he.1
        · intro he
          simp only [RE.fatGroups, Bool.and_eq_true] at he
          exact hb.2.2.2.2 he.1
    · refine Or.inr ⟨le_trans hle₁ hb.1, hb.2.1, hb.2.2.1, ?_, ?_⟩
      · intro he
        simp only [RE.epsGroups, Bool.and_eq_true] at he
        exact hb.2.2.2.1 he.2
      · intro he
        simp only [RE.fatGroups, Bool.and_eq_true] at he
        exact hb.2.2.2.2 he.2
  | alt r₁ r₂ ih₁ ih₂ =>
    intro i c j c' hi h n a b hm
    simp only [RE.mtch, List.mem_append] at h
    rcases h with h | h
    · rcases ih₁ i c j c' hi h n a b hm with hc | hb
      · exact Or.inl hc
      · refine Or.inr ⟨hb.1, hb.2.1, hb.2.2.1, ?_, ?_⟩
        · intro he
          simp only [RE.epsGroups, Bool.and_eq_true] at he
          exact hb.2.2.2.1 he.1
        · intro he
          simp only [RE.fatGroups, Bool.and_eq_true] at he
          exact hb.2.2.2.2 he.1
    · rcases ih₂ i c j c' hi h n a b hm with hc | hb
      · exact Or.inl hc
      · refine Or.inr ⟨hb.1, hb.2.1, hb.2.2.1, ?_, ?_⟩
        · intro he
          simp only [RE.epsGroups, Bool.and_eq_true] at he
          exact hb.2.2.2.1 he.2
        · intro he
          simp only [RE.fatGroups, Bool.and_eq_true] at he
          exact hb.2.2.2.2 he.2
  | starCls f =>
    intro i c j c' hi h n a b hm
    simp only [RE.mtch, List.mem_map, List.mem_reverse, List.mem_range] at h
    obtain ⟨k, -, heq⟩ := h
    injection heq with hj hc
    exact Or.inl (hc ▸ hm)
  | opt r ih =>
    intro i c j c' hi h n a b hm
    simp only [RE.mtch, List.mem_append, List.mem_singleton, Prod.mk.injEq] at h
    rcases h with h | h
    · rcases ih i c j c' hi h n a b hm with hc | hb
      · exact Or.inl hc
      · exact Or.inr ⟨hb.1, hb.2.1, hb.2.2.1,
          fun he => hb.2.2.2.1 (by simpa [RE.epsGroups] using he),
          fun he => hb.2.2.2.2 (by simpa [RE.fatGroups] using he)⟩
    · exact Or.inl (h.2 ▸ hm)
  | group m r ih =>
    intro i c j c' hi h n a b hm
    simp only [RE.mtch, List.mem_map] at h
    obtain ⟨⟨j₁, c₁⟩, h₁, heq⟩ := h
    injection heq with hj hc
    replace hj : j₁ = j := hj
    replace hc : (m, i, j₁) :: c₁ = c' := hc
    subst hj
    obtain ⟨hle, hlen, hmin⟩ := mtch_bounds s r i c j₁ c₁ hi h₁
    rcases List.mem_cons.mp (hc ▸ hm : (n, a, b) ∈ (m, i, j₁) :: c₁) with hm' | hm'
    · obtain ⟨hn, ha, hb'⟩ : n = m ∧ a = i ∧ b = j₁ := by
        simpa [Prod.ext_iff] using hm'
      subst hn; subst ha; subst hb'
      refine Or.inr ⟨le_refl _, hle, le_refl _, ?_, ?_⟩
      · intro he
        simp only [RE.epsGroups, Bool.and_eq_true, if_pos rfl] at he
        have hr := RE.eq_eps_of_isEps he.1
        subst hr
        simp only [RE.mtch, List.mem_singleton, Prod.mk.injEq] at h₁
        exact h₁.1.symm
      · intro he
        simp only [RE.fatGroups, Bool.and_eq_true, if_pos rfl] at he
        exact hmin he.1
    · rcases ih i c j₁ c₁ hi h₁ n a b hm' with hcc | hb
      · exact Or.inl hcc
      · refine Or.inr ⟨hb.1, hb.2.1, hb.2.2.1, ?_, ?_⟩
        · intro he
          simp only [RE.epsGroups, Bool.and_eq_true] at he
          exact hb.2.2.2.1 he.2
        · intro he
          simp only [RE.fatGroups, Bool.and_eq_true] at he
          exact hb.2.2.2.2 he.2
  | lkb f =>
    intro i c j c' hi h n a b hm
    simp only [RE.mtch] at h
    by_cases h0 : i = 0
    · rw [if_pos h0] at h
      simp only [List.mem_singleton, Prod.mk.injEq] at h
      exact Or.inl (h.2 ▸ hm)
    · rw [if_neg h0] at h
      cases hg : s.get? (i - 1) with
      | none =>
        rw [hg] at h
        simp only [List.mem_singleton, Prod.mk.injEq] at h
        exact Or.inl (h.2 ▸ hm)
      | some ch =>
        rw [hg] at h
        dsimp only at h
        by_cases hf : f ch = true
        · rw [if_pos hf] at h
          exact absurd h (List.not_mem_nil _)
        · rw [if_neg hf] at h
          simp only [List.mem_singleton, Prod.mk.injEq] at h
          exact Or.inl (h.2 ▸ hm)

/-- When every successful match of `r` must record group `n`
(`r.mustGroup n`), the capture list of any match contains an entry for
`n`. -/
theorem mtch_must (s : List Char) (r : RE) :
    ∀ (i : Nat) (c : Caps) (j : Nat) (c' : Caps), r.mustGroup n = true →
      (j, c') ∈ RE.mtch s r i c → ∃ a b : Nat, (n, a, b) ∈ c' := by
  induction r with
  | eps => intro i c j c' hg h; simp [RE.mustGroup] at hg
  | bos => intro i c j c' hg h; simp [RE.mustGroup] at hg
  | eos => intro i c j c' hg h; simp [RE.mustGroup] at hg
  | cls f => intro i c j c' hg h; simp [RE.mustGroup] at hg
  | starCls f => intro i c j c' hg h; simp [RE.mustGroup] at hg
  | opt r ih => intro i c j c' hg h; simp [RE.mustGroup] at hg
  | lkb f => intro i c j c' hg h; simp [RE.mustGroup] at hg
  | cat r₁ r₂ ih₁ ih₂ =>
    intro i c j c' hg h
    simp only [RE.mtch, List.mem_flatMap] at h
    obtain ⟨⟨j₁, c₁⟩, h₁, h₂⟩ := h
    simp only [RE.mustGroup, Bool.or_eq_true] at hg
    rcases hg with hg | hg
    · obtain ⟨a, b, hab⟩ := ih₁ i c j₁ c₁ hg h₁
      exact ⟨a, b, mtch_caps_mono s r₂ j₁ c₁ j c' h₂ _ hab⟩
    · exact ih₂ j₁ c₁ j c' hg h₂
  | alt r₁ r₂ ih₁ ih₂ =>
    intro i c j c' hg h
    simp only [RE.mtch, List.mem_append] at h
    simp only [RE.mustGroup, Bool.and_eq_true] at hg
    rcases h with h | h
    · exact ih₁ i c j c' hg.1 h
    · exact ih₂ i c j c' hg.2 h
  | group m r ih =>
    intro i c j c' hg h
    simp only [RE.mtch, List.mem_map] at h
    obtain ⟨⟨j₁, c₁⟩, h₁, heq⟩ := h
    injection heq with hj hc
    simp only [RE.mustGroup, Bool.or_eq_true, decide_eq_true_eq] at hg
    rcases hg with hg | hg
    · exact ⟨i, j₁, hc ▸ (hg ▸ List.mem_cons_self _ _)⟩
    · obtain ⟨a, b, hab⟩ := ih i c j₁ c₁ hg h₁
      exact ⟨a, b, hc ▸ List.mem_cons_of_mem _ hab⟩

theorem head?_mem {α : Type} {l : List α} {x : α} (h : l.head? = some x) : x ∈ l := by
  cases l with
  | nil => cases h
  | cons a t =>
    simp only [List.head?, Option.some.injEq] at h
    exact h ▸ List.mem_cons_self _ _

/-- Unfolding a successful `searchFrom`: the match starts at some tried
position and is the head of the match list there. -/
theorem searchFrom_some (r : RE) (s : List Char) :
    ∀ (fuel i st en : Nat) (caps : Caps),
      searchFrom r s fuel i = some (st, en, caps) →
      i ≤ st ∧ st < i + fuel ∧ (en, caps) ∈ RE.mtch s r st [] := by
  intro fuel
  induction fuel with
  | zero => intro i st en caps h; cases h
  | succ fuel ih =>
    intro i st en caps h
    simp only [searchFrom] at h
    cases hh : (RE.mtch s r i []).head? with
    | some jc =>
      rw [hh] at h
      simp only [Option.some.injEq] at h
      obtain ⟨h₁, h₂, h₃⟩ : i = st ∧ jc.1 = en ∧ jc.2 = caps := by
        simpa [Prod.ext_iff] using h
      subst h₁
      have hm : (en, caps) ∈ RE.mtch s r i [] := by
        have := head?_mem hh
        rwa [show jc = (en, caps) from Prod.ext h₂ h₃] at this
      exact ⟨le_refl _, by omega, hm⟩
    | none =>
      rw [hh] at h
      obtain ⟨h₁, h₂, h₃⟩ := ih (i + 1) st en caps h
      exact ⟨by omega, by omega, h₃⟩

/-- Unfolding a successful `reSearch`. -/
theorem reSearch_some (r : RE) (s : List Char) (st en : Nat) (caps : Caps)
    (h : reSearch r s = some (st, en, caps)) :
    st ≤ s.length ∧ (en, caps) ∈ RE.mtch s r st [] := by
  obtain ⟨-, h₂, h₃⟩ := searchFrom_some r s (s.length + 1) 0 st en caps h
  exact ⟨by omega, h₃⟩

/-- A capture recorded by a search of a pattern whose groups numbered `n`
all wrap the empty pattern is the empty string. -/
theorem reSearch_groupStr_eps (r : RE) (n : Nat) (s : List Char) (st en : Nat)
    (caps : Caps) (hr : r.epsGroups n = true) (h : reSearch r s = some (st, en, caps))
    (str : String) (hg : groupStr s caps n = some str) : str = "" := by
  obtain ⟨hst, hm⟩ := reSearch_some r s st en caps h
  cases hfind : caps.find? (fun t => t.1 = n) with
  | none => simp only [groupStr, capLookup, hfind, Option.map_none'] at hg; cases hg
  | some t =>
    simp only [groupStr, capLookup, hfind, Option.map_some', Option.some.injEq] at hg
    have htm : t ∈ caps := List.mem_of_find?_eq_some hfind
    have htp : t.1 = n := by simpa using List.find?_some hfind
    obtain ⟨tn, ta, tb⟩ := t
    simp only at htp
    subst htp
    rcases mtch_caps s r st [] en caps hst hm tn ta tb htm with hc | hb
    · cases hc
    · have hab' : ta = tb := hb.2.2.2.1 hr
      subst hab'
      rw [← hg]
      simp [sliceStr]

/-- A capture recorded by a search of a pattern whose groups numbered `n`
all must consume input is a non-empty string. -/
theorem reSearch_groupStr_fat (r : RE) (n : Nat) (s : List Char) (st en : Nat)
    (caps : Caps) (hr : r.fatGroups n = true) (h : reSearch r s = some (st, en, caps))
    (str : String) (hg : groupStr s caps n = some str) : str ≠ "" := by
  obtain ⟨hst, hm⟩ := reSearch_some r s st en caps h
  obtain ⟨-, hlen, -⟩ := mtch_bounds s r st [] en caps hst hm
  cases hfind : caps.find? (fun t => t.1 = n) with
  | none => simp only [groupStr, capLookup, hfind, Option.map_none'] at hg; cases hg
  | some t =>
    simp only [groupStr, capLookup, hfind, Option.map_some', Option.some.injEq] at hg
    have htm : t ∈ caps := List.mem_of_find?_eq_some hfind
    have htp : t.1 = n := by simpa using List.find?_some hfind
    obtain ⟨tn, ta, tb⟩ := t
    simp only at htp
    subst htp
    rcases mtch_caps s r st [] en caps hst hm tn ta tb htm with hc | hb
    · cases hc
    · have hlt : ta < tb := hb.2.2.2.2 hr
      have hble : tb ≤ en := hb.2.2.1
      intro hemp
      have hdata : str.data = (s.drop ta).take (tb - ta) := by
        rw [← hg]; rfl
      have hlen2 : str.data.length = min (tb - ta) (s.length - ta) := by
        rw [hdata]
        simp [List.length_take, List.length_drop]
      rw [hemp] at hlen2
      simp only [String.data] at hlen2
      have : min (tb - ta) (s.length - ta) = 0 := by
        simpa using hlen2.symm
      omega

/-- A search of a pattern that must record group `n` yields a capture for
it. -/
theorem reSearch_groupStr_must (r : RE) (n : Nat) (s : List Char) (st en : Nat)
    (caps : Caps) (hr : r.mustGroup n = true) (h : reSearch r s = some (st, en, caps)) :
    ∃ str, groupStr s caps n = some str := by
  obtain ⟨hst, hm⟩ := reSearch_some r s st en caps h
  obtain ⟨a, b, hab⟩ := mtch_must s r st [] en caps hr hm
  have hfind : (caps.find? (fun t => t.1 = n)).isSome :=
    List.find?_isSome.mpr ⟨(n, a, b), hab, by simp⟩
  obtain ⟨t, ht⟩ := Option.isSome_iff_exists.mp hfind
  exact ⟨sliceStr s t.2.1 t.2.2, by simp [groupStr, capLookup, ht]⟩

/-! ## Facts about the extracted fragments -/

theorem str_eq_empty_iff (s : String) : s = "" ↔ s.data = [] := by
  constructor
  · intro h; subst h; rfl
  · intro h
    cases s with
    | mk d => cases h; rfl

theorem listReplace_ne_nil (pat rep : List Char) (fuel : Nat) (l : List Char)
    (hl : l ≠ []) (hrep : rep ≠ []) : listReplace pat rep fuel l ≠ [] := by
  cases fuel with
  | zero => simpa [listReplace] using hl
  | succ fuel =>
    cases l with
    | nil => exact absurd rfl hl
    | cons c t =>
      simp only [listReplace]
      split
      · intro h
        exact hrep (List.append_eq_nil.mp h).1
      · simp

theorem pyFindSub_pos (l p : List Char) (k : Nat) (h : pyFindSub l p = some k)
    (hnp : pyStartswith l p = false) : 1 ≤ k := by
  cases l with
  | nil =>
    simp only [pyFindSub] at h
    by_cases hp : p = []
    · subst hp
      simp [pyStartswith, List.isPrefixOf] at hnp
    · rw [if_neg hp] at h
      cases h
  | cons c t =>
    simp only [pyFindSub] at h
    have hb : p.isPrefixOf (c :: t) = false := hnp
    rw [if_neg (by simp [hb])] at h
    simp only [Option.map_eq_some'] at h
    obtain ⟨k', -, hk⟩ := h
    omega

/-- `segRaw` on a string matched by `refullsrc` returns that grammar's
groups. -/
theorem segRaw_refull (x : String) (m : Nat × Nat × Caps)
    (hm : reSearch refullsrc x.data = some m) :
    segRaw x = some ((groupStr x.data m.2.2 1).getD "", (groupStr x.data m.2.2 2).getD "",
      groupStr x.data m.2.2 3) := by
  simp [segRaw, hm]

/-- The year group of `refullsrc` captures the empty string on every
match: the group wraps the empty pattern `(?P<y>)`. -/
theorem refull_year_empty (x : String) (m : Nat × Nat × Caps)
    (hm : reSearch refullsrc x.data = some m) :
    (groupStr x.data m.2.2 2).getD "" = "" := by
  cases hg : groupStr x.data m.2.2 2 with
  | none => rfl
  | some str =>
    have h := reSearch_groupStr_eps refullsrc 2 x.data m.1 m.2.1 m.2.2 (by decide) hm str hg
    simpa using h

/-- The raw author text extracted by any of the three grammars is
non-empty. -/
theorem segRaw_author_ne (x : String) (t : String × String × Option String)
    (h : segRaw x = some t) : t.1 ≠ "" := by
  unfold segRaw at h
  cases h₁ : reSearch refullsrc x.data with
  | some m =>
    rw [h₁] at h
    simp only [Option.some.injEq] at h
    obtain ⟨str, hstr⟩ := reSearch_groupStr_must refullsrc 1 x.data m.1 m.2.1 m.2.2 (by decide) h₁
    have hne := reSearch_groupStr_fat refullsrc 1 x.data m.1 m.2.1 m.2.2 (by decide) h₁ str hstr
    rw [← h]
    simpa [hstr] using hne
  | none =>
    rw [h₁] at h
    cases h₂ : reSearch resrc x.data with
    | some m =>
      rw [h₂] at h
      simp only [Option.some.injEq] at h
      obtain ⟨str, hstr⟩ := reSearch_groupStr_must resrc 1 x.data m.1 m.2.1 m.2.2 (by decide) h₂
      have hne := reSearch_groupStr_fat resrc 1 x.data m.1 m.2.1 m.2.2 (by decide) h₂ str hstr
      rw [← h]
      simpa [hstr] using hne
    | none =>
      rw [h₂] at h
      cases h₃ : reSearch altrefullsrc x.data with
      | some m =>
        rw [h₃] at h
        simp only [Option.some.injEq] at h
        obtain ⟨str, hstr⟩ :=
          reSearch_groupStr_must altrefullsrc 1 x.data m.1 m.2.1 m.2.2 (by decide) h₃
        have hne := reSearch_groupStr_fat altrefullsrc 1 x.data m.1 m.2.1 m.2.2 (by decide) h₃ str hstr
        rw [← h]
        simp only [hstr, Option.getD_some]
        intro hemp
        rw [str_eq_empty_iff] at hemp
        have hd : (pyReplace str "&" " and ").data =
            listReplace "&".data " and ".data str.data.length str.data := rfl
        exact listReplace_ne_nil "&".data " and ".data str.data.length str.data
          ((str_eq_empty_iff str).not.mp hne) (by decide) (hd ▸ hemp)
      | none => rw [h₃] at h; cases h

/-- The year text extracted by `resrc` or `altrefullsrc` is non-empty. -/
theorem segRaw_year_ne (x : String) (t : String × String × Option String)
    (h : segRaw x = some t) (h₁ : reSearch refullsrc x.data = none) : t.2.1 ≠ "" := by
  unfold segRaw at h
  rw [h₁] at h
  cases h₂ : reSearch resrc x.data with
  | some m =>
    rw [h₂] at h
    simp only [Option.some.injEq] at h
    obtain ⟨str, hstr⟩ := reSearch_groupStr_must resrc 2 x.data m.1 m.2.1 m.2.2 (by decide) h₂
    have hne := reSearch_groupStr_fat resrc 2 x.data m.1 m.2.1 m.2.2 (by decide) h₂ str hstr
    rw [← h]
    simpa [hstr] using hne
  | none =>
    rw [h₂] at h
    cases h₃ : reSearch altrefullsrc x.data with
    | some m =>
      rw [h₃] at h
      simp only [Option.some.injEq] at h
      obtain ⟨str, hstr⟩ :=
        reSearch_groupStr_must altrefullsrc 2 x.data m.1 m.2.1 m.2.2 (by decide) h₃
      have hne := reSearch_groupStr_fat altrefullsrc 2 x.data m.1 m.2.1 m.2.2 (by decide) h₃ str hstr
      rw [← h]
      simpa [hstr] using hne
    | none => rw [h₃] at h; cases h

/-! ## Claim theorems -/

/-- **C4**: on every segment on which the full-reference grammar
`refullsrc` matches, the yielded fragment's year text is the empty string:
the grammar's year group `(?P<y>)` captures a zero-width position and can
never capture digits, so the grammar matches regardless of whether a real
year is present. -/
theorem claim_C4 (x : String) (wft : Option String)
    (h : (reSearch refullsrc (pyStrip x).data).isSome = true) :
    ∃ a p w, fragOfSeg x wft = some (a, "", p, w) := by
  obtain ⟨m, hm⟩ := Option.isSome_iff_exists.mp h
  have hseg := segRaw_refull (pyStrip x) m hm
  have hy := refull_year_empty (pyStrip x) m hm
  refine ⟨(splitHint ((groupStr (pyStrip x).data m.2.2 1).getD "") wft).1,
    pOut (groupStr (pyStrip x).data m.2.2 3),
    (splitHint ((groupStr (pyStrip x).data m.2.2 1).getD "") wft).2, ?_⟩
  simp [fragOfSeg, hseg, hy]

/-- Witness for C4: `"Smith, abc ("` — a segment without any digits — is
matched by the full-reference grammar and yields an empty year text. -/
theorem claim_C4_witness :
    (reSearch refullsrc (pyStrip "Smith, abc (").data).isSome = true ∧
    ∃ a p w, fragOfSeg "Smith, abc (" none = some (a, "", p, w) :=
  ⟨by decide, claim_C4 "Smith, abc (" none (by decide)⟩

/-- **C3 (amended)**: a segment parsing under none of the three grammars
yields no fragment (and the tokenizer is total, so no error is raised);
a yielded fragment has non-empty author text unless the raw author match
begins with an underscore (which the underscore-to-title-hint rule
truncates away entirely), and has non-empty year text exactly unless the
full-reference grammar produced the fragment, in which case the year text
is always empty. -/
theorem claim_C3 :
    (∀ (x : String) (wft : Option String),
      reSearch refullsrc (pyStrip x).data = none →
      reSearch resrc (pyStrip x).data = none →
      reSearch altrefullsrc (pyStrip x).data = none →
      fragOfSeg x wft = none) ∧
    (∀ (x : String) (wft : Option String) (f : Ayp), fragOfSeg x wft = some f →
      (f.1 ≠ "" ∨
        ∃ t, segRaw (pyStrip x) = some t ∧ pyStartswith t.1.data "_".data = true) ∧
      (reSearch refullsrc (pyStrip x).data = none → f.2.1 ≠ "") ∧
      ((reSearch refullsrc (pyStrip x).data).isSome = true → f.2.1 = "")) := by
  constructor
  · intro x wft h₁ h₂ h₃
    simp [fragOfSeg, segRaw, h₁, h₂, h₃]
  · intro x wft f hf
    simp only [fragOfSeg] at hf
    cases hseg : segRaw (pyStrip x) with
    | none => rw [hseg] at hf; cases hf
    | some t =>
      rw [hseg] at hf
      simp only [Option.some.injEq] at hf
      have hane := segRaw_author_ne (pyStrip x) t hseg
      refine ⟨?_, ?_, ?_⟩
      · rw [← hf]
        cases hk : pyFindSub t.1.data "_".data with
        | none =>
          left
          simpa [splitHint, hk] using hane
        | some k =>
          by_cases hu : pyStartswith t.1.data "_".data = true
          · right
            exact ⟨t, rfl, hu⟩
          · left
            have hk1 : 1 ≤ k :=
              pyFindSub_pos t.1.data "_".data k hk (by simpa using hu)
            simp only [splitHint, hk]
            intro hemp
            rw [str_eq_empty_iff] at hemp
            simp only at hemp
            rcases List.take_eq_nil_iff.mp hemp with h0 | h0
            · omega
            · exact hane ((str_eq_empty_iff t.1).mpr h0)
      · intro hnone
        rw [← hf]
        exact segRaw_year_ne (pyStrip x) t hseg hnone
      · intro hsome
        obtain ⟨m, hm⟩ := Option.isSome_iff_exists.mp hsome
        have hrf := segRaw_refull (pyStrip x) m hm
        rw [hseg] at hrf
        simp only [Option.some.injEq] at hrf
        rw [← hf]
        show t.2.1 = ""
        rw [hrf]
        exact refull_year_empty (pyStrip x) m hm

/-- Witness for C3: `"Smith 1990: 5"` parses under the inline grammar and
its fragment has non-empty author and year text. -/
theorem claim_C3_witness :
    (fragOfSeg "Smith 1990: 5" none = some ("Smith", "1990", some "5", none)) ∧
    (("Smith", "1990", (some "5" : Option String), (none : Option String)).1 ≠ "" ∨
      ∃ t, segRaw (pyStrip "Smith 1990: 5") = some t ∧
        pyStartswith t.1.data "_".data = true) ∧
    (reSearch refullsrc (pyStrip "Smith 1990: 5").data = none →
      ("Smith", "1990", (some "5" : Option String), (none : Option String)).2.1 ≠ "") ∧
    ((reSearch refullsrc (pyStrip "Smith 1990: 5").data).isSome = true →
      ("Smith", "1990", (some "5" : Option String), (none : Option String)).2.1 = "") :=
  ⟨by decide, claim_C3.2 "Smith 1990: 5" none ("Smith", "1990", some "5", none) (by decide)⟩

/-- Counterexample to C3 as stated: the segment `"Smith, abc ("` yields a
fragment whose year text is empty (the full-reference grammar's degenerate
year group), and the segment `"_x, abc ("` yields a fragment whose author
text is empty (the author match starts with an underscore), so not every
yielded fragment has non-empty author and year text. -/
theorem claim_C3_counterexample :
    iter_ayps "Smith, abc (" = [("Smith", "", none, none)] ∧
    iter_ayps "_x, abc (" = [("", "", none, some "x")] := by
  constructor <;> decide

/-- **C7**: the tokenizer tries the three grammars in the fixed order
full-reference, inline, condensed and takes the first match: a segment the
full-reference grammar matches uses its groups; a segment it does not
match but the inline grammar does uses the inline grammar's groups
verbatim (in particular `&` is not replaced); only when the condensed
grammar is the one that matched is `&` in the author text expanded to
`" and "`.  The two evaluations show an inline fragment keeping its `&`
and a condensed fragment with `&` expanded. -/
theorem claim_C7 :
    (∀ (x : String) (t : String × String × Option String),
      grammarGroups refullsrc x = some t → segRaw x = some t) ∧
    (∀ (x : String) (t : String × String × Option String),
      reSearch refullsrc x.data = none →
      grammarGroups resrc x = some t → segRaw x = some t) ∧
    (∀ (x : String) (t : String × String × Option String),
      reSearch refullsrc x.data = none → reSearch resrc x.data = none →
      grammarGroups altrefullsrc x = some t →
      segRaw x = some (pyReplace t.1 "&" " and ", t.2.1, t.2.2)) ∧
    iter_ayps "Smith&Jones 1985" = [("Smith&Jones", "1985", none, none)] ∧
    iter_ayps "Gwynn&Krishnamurti1985, p.144" =
      [("Gwynn and Krishnamurti", "1985", some "144", none)] := by
  refine ⟨?_, ?_, ?_, by decide, by decide⟩
  · intro x t h
    simp only [grammarGroups, Option.map_eq_some'] at h
    obtain ⟨m, hm, ht⟩ := h
    simp [segRaw, hm, ht]
  · intro x t h₁ h
    simp only [grammarGroups, Option.map_eq_some'] at h
    obtain ⟨m, hm, ht⟩ := h
    simp [segRaw, h₁, hm, ht]
  · intro x t h₁ h₂ h
    simp only [grammarGroups, Option.map_eq_some'] at h
    obtain ⟨m, hm, ht⟩ := h
    simp [segRaw, h₁, h₂, hm, ← ht]

/-- Witness for C7: on `"Smith&Jones 1985"` the full-reference grammar
fails, the inline grammar matches, and the tokenizer uses the inline
result without expanding `&`. -/
theorem claim_C7_witness :
    segRaw "Smith&Jones 1985" = some ("Smith&Jones", "1985", none) :=
  claim_C7.2.1 "Smith&Jones 1985" ("Smith&Jones", "1985", none) (by decide) (by decide)

/-- **C8**: `iter_ayps` replaces `"), "` by `"); "`, splits on `";"`,
strips each segment, and discards a segment containing `"p.c."` whose
stripped form starts with `"pc"`; on `"pc, p.c. info; Smith 1990: 5"` it
yields exactly the fragment for `"Smith 1990: 5"`. -/
theorem claim_C8 :
    (∀ s : String,
      iter_ayps s = iterAypsAux (pySplit (pyReplace s "), " "); ") ";") none) ∧
    (∀ (x : String) (rest : List String) (wft : Option String),
      pcDrop x = true → iterAypsAux (x :: rest) wft = iterAypsAux rest wft) ∧
    pcDrop "pc, p.c. info" = true ∧
    iter_ayps "pc, p.c. info; Smith 1990: 5" = [("Smith", "1990", some "5", none)] := by
  refine ⟨fun s => rfl, ?_, by decide, by decide⟩
  intro x rest wft h
  simp [iterAypsAux, h]

/-- Witness for C8: the personal-communication segment is dropped in
front of any remaining segments. -/
theorem claim_C8_witness :
    iterAypsAux ["pc, p.c. info", " Smith 1990: 5"] none =
      iterAypsAux [" Smith 1990: 5"] none :=
  claim_C8.2.1 "pc, p.c. info" [" Smith 1990: 5"] none (by decide)

/-- **C10**: the title-word hint extracted from an underscore in one
segment persists within the same `iter_ayps` call: a later segment whose
author text contains no underscore yields a fragment carrying the current
hint unchanged, and passes the same hint on — the hint is never reset.
The evaluation shows a hint extracted in the first segment attached to
the second segment's fragment. -/
theorem claim_C10 :
    (∀ (x : String) (rest : List String) (wft : Option String) (a y : String)
        (p : Option String),
      pcDrop x = false → segRaw (pyStrip x) = some (a, y, p) →
      pyFindSub a.data "_".data = none →
      iterAypsAux (x :: rest) wft = (a, y, pOut p, wft) :: iterAypsAux rest wft) ∧
    iter_ayps "Smith_gram, abc (; Jones 1990" =
      [("Smith", "", none, some "gram"), ("Jones", "1990", none, some "gram")] := by
  refine ⟨?_, by decide⟩
  intro x rest wft a y p h₁ h₂ h₃
  simp [iterAypsAux, h₁, fragOfSeg, h₂, splitHint, h₃]

/-- Witness for C10: a segment without an underscore, processed with the
carried hint `"gram"`, attaches that hint and passes it on unchanged. -/
theorem claim_C10_witness :
    iterAypsAux ["Jones 1990"] (some "gram") =
      ("Jones", "1990", pOut none, some "gram") :: iterAypsAux [] (some "gram") :=
  claim_C10.1 "Jones 1990" [] (some "gram") "Jones" "1990" none (by decide) (by decide)
    (by decide)

theorem groupRefs_eq_nil {l : List (String × Option String)} (h : groupRefs l = []) :
    l = [] := by
  cases l with
  | nil => rfl
  | cons x t =>
    obtain ⟨k, p⟩ := x
    simp [groupRefs, groupRefsFuel] at h

theorem foldl_insert_ne_nil (new : List Unres) :
    ∀ acc : List Unres, acc ≠ [] →
      new.foldl (fun acc x => if acc.contains x then acc else acc ++ [x]) acc ≠ [] := by
  induction new with
  | nil => intro acc h; simpa using h
  | cons x xs ih =>
    intro acc h
    simp only [List.foldl_cons]
    apply ih
    split
    · exact h
    · simp

theorem updateUnres_cons_ne_nil (x : Unres) (xs : List Unres) :
    updateUnres [] (x :: xs) ≠ [] := by
  unfold updateUnres
  simp only [List.foldl_cons, List.contains_nil, List.nil_append]
  split
  · simp_all
  · exact foldl_insert_ne_nil xs [x] (by simp)

theorem refPairs_empty (rank : String → Nat) (extra : String → List String)
    (src lgid : String) (e : String → BibEntry) (lgks : String → Option (List String))
    (hks : lgks lgid = some []) : refPairs rank extra src lgid e lgks = [] := by
  unfold refPairs
  have h : (iter_ayps src).flatMap (fun s => iter_key_pages rank extra lgid s e lgks) = [] := by
    induction iter_ayps src with
    | nil => rfl
    | cons a t ih =>
      simp only [List.flatMap_cons, ih, List.append_nil]
      simp [iter_key_pages, hks, priok, allmaxKeys]
  simp [h, sortRefs]

theorem source_to_refs_fst (rank : String → Nat) (extra : String → List String)
    (src lgid : String) (e : String → BibEntry) (lgks : String → Option (List String))
    (unresolved : List Unres) :
    (source_to_refs rank extra src lgid e lgks unresolved).1 =
      groupRefs (refPairs rank extra src lgid e lgks) := by
  unfold source_to_refs
  dsimp only
  split_ifs <;> rfl

/-- **C1 (amended)**: when a source string resolves to no references and
is not a page-numbers-only string, the source comment is set to the whole
string **iff** it contains one of the work-in-progress/unavailable markers
or starts with `"http"`; otherwise (no marker, no `http` prefix) the
comment stays unset and the extracted `(author, year, language)` triples —
or the `(source, language)` pair when nothing was extracted — are added to
the unresolved accumulator, which is untouched in the marker case. -/
theorem claim_C1 (rank : String → Nat) (extra : String → List String) (src lgid : String)
    (e : String → BibEntry) (lgks : String → Option (List String)) (unresolved : List Unres)
    (hrefs : (source_to_refs rank extra src lgid e lgks unresolved).1 = [])
    (hpage : repageonlyMatch src = false) :
    ((source_to_refs rank extra src lgid e lgks unresolved).2.1 = some src ↔
      commentCond src = true) ∧
    (commentCond src = false →
      (source_to_refs rank extra src lgid e lgks unresolved).2.2 =
        updateUnres unresolved
          (if iter_ayps src = [] then [Unres.sl src lgid]
           else (iter_ayps src).map (fun ay => Unres.ayl ay.1 ay.2.1 lgid))) ∧
    (commentCond src = true →
      (source_to_refs rank extra src lgid e lgks unresolved).2.2 = unresolved) := by
  have hr : refPairs rank extra src lgid e lgks = [] :=
    groupRefs_eq_nil ((source_to_refs_fst rank extra src lgid e lgks unresolved) ▸ hrefs)
  cases hcc : commentCond src with
  | true =>
    have hres : source_to_refs rank extra src lgid e lgks unresolved =
        (groupRefs [], some src, unresolved) := by
      simp [source_to_refs, hr, hpage, hcc]
    rw [hres]
    refine ⟨by simp, ?_, fun _ => rfl⟩
    intro h
    cases h
  | false =>
    by_cases ha : iter_ayps src = []
    · have hres : source_to_refs rank extra src lgid e lgks unresolved =
          (groupRefs [], none, updateUnres unresolved [Unres.sl src lgid]) := by
        simp [source_to_refs, hr, hpage, hcc, ha]
      rw [hres]
      exact ⟨by simp, fun _ => by simp [ha], fun h => by cases h⟩
    · have hres : source_to_refs rank extra src lgid e lgks unresolved =
          (groupRefs [], none,
            updateUnres unresolved
              ((iter_ayps src).map (fun ay => Unres.ayl ay.1 ay.2.1 lgid))) := by
        simp [source_to_refs, hr, hpage, hcc, ha]
      rw [hres]
      exact ⟨by simp, fun _ => by simp [ha], fun h => by cases h⟩

/-- Witness for C1: an unparseable marker-free string goes to the
unresolved accumulator with the comment unset. -/
theorem claim_C1_witness :
    ((source_to_refs rankW extraW "zzz unparseable" "fra" eEmpty lgksEmpty []).2.1 =
        some "zzz unparseable" ↔ commentCond "zzz unparseable" = true) ∧
    (commentCond "zzz unparseable" = false →
      (source_to_refs rankW extraW "zzz unparseable" "fra" eEmpty lgksEmpty []).2.2 =
        updateUnres []
          (if iter_ayps "zzz unparseable" = [] then [Unres.sl "zzz unparseable" "fra"]
           else (iter_ayps "zzz unparseable").map
             (fun ay => Unres.ayl ay.1 ay.2.1 "fra"))) ∧
    (commentCond "zzz unparseable" = true →
      (source_to_refs rankW extraW "zzz unparseable" "fra" eEmpty lgksEmpty []).2.2 = []) :=
  claim_C1 rankW extraW "zzz unparseable" "fra" eEmpty lgksEmpty [] (by decide) (by decide)

/-- Counterexample to C1 as stated: `"ield notes"` resolves to no
references, is not page-numbers-only, and **contains** a marker, yet the
code sets the source comment to the whole string and leaves the
unresolved accumulator untouched — the opposite of the claimed branch
assignment. -/
theorem claim_C1_counterexample :
    source_to_refs rankW extraW "ield notes" "fra" eEmpty lgksEmpty [] =
      ([], some "ield notes", []) ∧
    (pyFindSub "ield notes".data "ield notes".data).isSome = true ∧
    repageonlyMatch "ield notes" = false := by
  refine ⟨by decide, by decide, by decide⟩

/-- **C2 (amended)**: with an empty candidate key set for the language,
one call of `source_to_refs` on a non-page-numbers-only string results in
exactly one of: references non-empty (impossible here), comment set, or
the (fresh) unresolved accumulator gaining an entry.  A page-numbers-only
string results in **none** of the three: only a diagnostic is printed. -/
theorem claim_C2 (rank : String → Nat) (extra : String → List String) (src lgid : String)
    (e : String → BibEntry) (lgks : String → Option (List String))
    (hks : lgks lgid = some []) :
    (repageonlyMatch src = false →
      ExactlyOne ((source_to_refs rank extra src lgid e lgks []).1 ≠ [])
        ((source_to_refs rank extra src lgid e lgks []).2.1.isSome = true)
        ((source_to_refs rank extra src lgid e lgks []).2.2 ≠ [])) ∧
    (repageonlyMatch src = true →
      (source_to_refs rank extra src lgid e lgks []).1 = [] ∧
      (source_to_refs rank extra src lgid e lgks []).2.1 = none ∧
      (source_to_refs rank extra src lgid e lgks []).2.2 = []) := by
  have hr : refPairs rank extra src lgid e lgks = [] :=
    refPairs_empty rank extra src lgid e lgks hks
  constructor
  · intro hpage
    cases hcc : commentCond src with
    | true =>
      have hres : source_to_refs rank extra src lgid e lgks [] =
          (groupRefs [], some src, []) := by
        simp [source_to_refs, hr, hpage, hcc]
      rw [hres]
      exact Or.inr (Or.inl (by simp [groupRefs, groupRefsFuel]))
    | false =>
      by_cases ha : iter_ayps src = []
      · have hres : source_to_refs rank extra src lgid e lgks [] =
            (groupRefs [], none, updateUnres [] [Unres.sl src lgid]) := by
          simp [source_to_refs, hr, hpage, hcc, ha]
        rw [hres]
        refine Or.inr (Or.inr ⟨by simp [groupRefs, groupRefsFuel], by simp, ?_⟩)
        exact updateUnres_cons_ne_nil (Unres.sl src lgid) []
      · have hres : source_to_refs rank extra src lgid e lgks [] =
            (groupRefs [], none,
              updateUnres [] ((iter_ayps src).map (fun ay => Unres.ayl ay.1 ay.2.1 lgid))) := by
          simp [source_to_refs, hr, hpage, hcc, ha]
        rw [hres]
        refine Or.inr (Or.inr ⟨by simp [groupRefs, groupRefsFuel], by simp, ?_⟩)
        cases hays : iter_ayps src with
        | nil => exact absurd hays ha
        | cons f fs =>
          simp only [List.map_cons]
          exact updateUnres_cons_ne_nil _ _
  · intro hpage
    have hres : source_to_refs rank extra src lgid e lgks [] =
        (groupRefs [], none, []) := by
      simp [source_to_refs, hr, hpage]
    rw [hres]
    exact ⟨by simp [groupRefs, groupRefsFuel], rfl, rfl⟩

/-- Witness for C2: for the marker-free unparseable string only the
unresolved accumulator gains an entry. -/
theorem claim_C2_witness :
    ExactlyOne ((source_to_refs rankW extraW "zzz unparseable" "fra" eEmpty lgksEmpty []).1 ≠ [])
      ((source_to_refs rankW extraW "zzz unparseable" "fra" eEmpty lgksEmpty []).2.1.isSome = true)
      ((source_to_refs rankW extraW "zzz unparseable" "fra" eEmpty lgksEmpty []).2.2 ≠ []) :=
  (claim_C2 rankW extraW "zzz unparseable" "fra" eEmpty lgksEmpty rfl).1 (by decide)

/-- Counterexample to C2 as stated: for the page-numbers-only string
`"1234"` none of the three outcome classes holds — references are empty,
the comment is unset, and the unresolved accumulator stays empty. -/
theorem claim_C2_counterexample :
    source_to_refs rankW extraW "1234" "fra" eEmpty lgksEmpty [] = ([], none, []) ∧
    repageonlyMatch "1234" = true := by
  refine ⟨by decide, by decide⟩

/-- A string whose first character differs cannot equal
`"value without source"`. -/
theorem append_ne_vws (pre t : String) (c : Char) (hc : pre.data.head? = some c)
    (hv : c ≠ 'v') : pre ++ t ≠ "value without source" := by
  intro h
  have hd : pre.data ++ t.data = "value without source".data := by
    rw [← String.data_append, h]
  cases hp : pre.data with
  | nil => rw [hp] at hc; cases hc
  | cons c₀ rest =>
    rw [hp] at hc hd
    simp only [List.head?, Option.some.injEq] at hc
    simp only [List.cons_append] at hd
    have hcv : c₀ = 'v' := by
      have := congrArg List.head? hd
      simpa using this
    exact hv (hc ▸ hcv)

/-- **C9**: a row with a non-empty Value and an empty Source (whose
Feature_ID is present and known to the feature catalog, so that
`valid_row` does not return before the check) is reported with the message
`"value without source"` at level WARNING, and that message is never
logged at any other level. -/
theorem claim_C9 (row : SheetRow) (apiF : String → Option (List String))
    (features : List String) (hfid : row.Feature_ID ≠ "")
    (hapi : (apiF row.Feature_ID).isSome = true)
    (hv : row.Value ≠ "") (hs : row.Source = "") :
    ("WARNING", "value without source") ∈ (valid_row row apiF features).2 ∧
    ∀ lvl : String, (lvl, "value without source") ∈ (valid_row row apiF features).2 →
      lvl = "WARNING" := by
  obtain ⟨domain, hdom⟩ := Option.isSome_iff_exists.mp hapi
  have hres : (valid_row row apiF features).2 =
      ((if (reMatch fidRE row.Feature_ID.data).isNone ∧ row.Value ≠ "" then
         [("ERROR", "invalid Feature_ID: " ++ row.Feature_ID)] else []) ++
       (if (row.Value ≠ "" ∧ row.Value ≠ "?" ∧ ¬ domain.contains row.Value : Bool) then
         [("ERROR", "invalid value " ++ row.Value)] else []) ++
       (if (row.Value ≠ "" ∧ row.Source = "" : Bool) then
         [("WARNING", "value without source")] else []) ++
       (if (row.Source ≠ "" ∧ row.Value = "" : Bool) then
         [("WARNING", "source given, but no value")] else []) ++
       (if (row.Comment ≠ "" ∧ row.Value = "" : Bool) then
         [("WARNING", "comment given, but no value")] else []) ++
       (if features.contains row.Feature_ID then
         [("ERROR", "duplicate value for feature " ++ row.Feature_ID)] else [])) := by
    simp only [valid_row, if_neg hfid, hdom]
  have hb₃ : (row.Value ≠ "" ∧ row.Source = "" : Bool) = true := by
    simp [hv, hs]
  have hb₄ : (row.Source ≠ "" ∧ row.Value = "" : Bool) = false := by
    simp [hs]
  have hb₅ : (row.Comment ≠ "" ∧ row.Value = "" : Bool) = false := by
    simp [hv]
  constructor
  · rw [hres]
    simp [hb₃]
  · intro lvl hl
    rw [hres] at hl
    simp only [hb₃, hb₄, hb₅, Bool.false_eq_true, if_false, if_true,
      List.append_nil, List.mem_append] at hl
    rcases hl with ((hl | hl) | hl) | hl
    · split at hl
      · simp only [List.mem_singleton, Prod.mk.injEq] at hl
        exact absurd hl.2.symm
          (append_ne_vws "invalid Feature_ID: " row.Feature_ID 'i' rfl (by decide))
      · cases hl
    · split at hl
      · simp only [List.mem_singleton, Prod.mk.injEq] at hl
        exact absurd hl.2.symm
          (append_ne_vws "invalid value " row.Value 'i' rfl (by decide))
      · cases hl
    · simp only [List.mem_singleton, Prod.mk.injEq] at hl
      exact hl.1
    · split at hl
      · simp only [List.mem_singleton, Prod.mk.injEq] at hl
        exact absurd hl.2.symm
          (append_ne_vws "duplicate value for feature " row.Feature_ID 'd' rfl (by decide))
      · cases hl

/-- Witness for C9: the fixture row with Value "1" and empty Source gets
the warning. -/
theorem claim_C9_witness :
    ("WARNING", "value without source") ∈ (valid_row rowW apiW []).2 :=
  (claim_C9 rowW apiW [] (by decide) (by decide) (by decide) (by decide)).1

/-! ## The order on priority pairs and the maximality of `allmaxKeys` -/

theorem pairLeB_refl (p : Nat × Bool) : pairLeB p p = true := by
  cases hp : p.2 <;> simp [pairLeB, hp]

theorem pairLeB_total (p q : Nat × Bool) : pairLeB p q = true ∨ pairLeB q p = true := by
  unfold pairLeB
  rcases Nat.lt_trichotomy p.1 q.1 with h | h | h
  · left; simp [h]
  · cases hp : p.2 <;> cases hq : q.2
    · left; simp [h, hp, hq]
    · left; simp [h, hp, hq]
    · right; simp [h.symm, hp, hq]
    · left; simp [h, hp, hq]
  · right; simp [h]

theorem pairLeB_trans {p q r : Nat × Bool} (h₁ : pairLeB p q = true)
    (h₂ : pairLeB q r = true) : pairLeB p r = true := by
  unfold pairLeB at h₁ h₂ ⊢
  simp only [Bool.or_eq_true, Bool.and_eq_true, decide_eq_true_eq] at h₁ h₂ ⊢
  rcases h₁ with h₁ | ⟨h₁e, h₁b⟩ <;> rcases h₂ with h₂ | ⟨h₂e, h₂b⟩
  · left; omega
  · left; omega
  · left; omega
  · right
    refine ⟨by omega, ?_⟩
    cases hp : p.2 <;> cases hq : q.2 <;> cases hr : r.2 <;> simp_all

theorem pairLeB_antisymm {p q : Nat × Bool} (h₁ : pairLeB p q = true)
    (h₂ : pairLeB q p = true) : p = q := by
  unfold pairLeB at h₁ h₂
  simp only [Bool.or_eq_true, Bool.and_eq_true, decide_eq_true_eq] at h₁ h₂
  obtain ⟨p1, p2⟩ := p
  obtain ⟨q1, q2⟩ := q
  simp only at h₁ h₂
  have he : p1 = q1 := by
    rcases h₁ with h₁ | ⟨h₁e, -⟩ <;> rcases h₂ with h₂ | ⟨h₂e, -⟩ <;> omega
  subst he
  have hb : p2 = q2 := by
    rcases h₁ with h₁ | ⟨-, h₁b⟩
    · omega
    · rcases h₂ with h₂ | ⟨-, h₂b⟩
      · omega
      · cases p2 <;> cases q2 <;> simp_all
  rw [hb]

theorem pairMaxB_cases (p q : Nat × Bool) : pairMaxB p q = p ∨ pairMaxB p q = q := by
  unfold pairMaxB
  split
  · right; rfl
  · left; rfl

theorem le_pairMaxB_left (p q : Nat × Bool) : pairLeB p (pairMaxB p q) = true := by
  unfold pairMaxB
  split
  · assumption
  · exact pairLeB_refl p

theorem le_pairMaxB_right (p q : Nat × Bool) : pairLeB q (pairMaxB p q) = true := by
  unfold pairMaxB
  split
  · exact pairLeB_refl q
  · rcases pairLeB_total p q with h | h
    · simp_all
    · exact h

theorem foldl_pairMaxB_spec (vs : List (Nat × Bool)) :
    ∀ v₀ : Nat × Bool,
      (vs.foldl pairMaxB v₀ = v₀ ∨ vs.foldl pairMaxB v₀ ∈ vs) ∧
      pairLeB v₀ (vs.foldl pairMaxB v₀) = true ∧
      ∀ v ∈ vs, pairLeB v (vs.foldl pairMaxB v₀) = true := by
  induction vs with
  | nil =>
    intro v₀
    exact ⟨Or.inl rfl, pairLeB_refl v₀, by simp⟩
  | cons w ws ih =>
    intro v₀
    simp only [List.foldl_cons]
    obtain ⟨hmem, hle, hub⟩ := ih (pairMaxB v₀ w)
    refine ⟨?_, ?_, ?_⟩
    · rcases hmem with h | h
      · rcases pairMaxB_cases v₀ w with h2 | h2
        · left; rw [h, h2]
        · right; rw [h, h2]; exact List.mem_cons_self _ _
      · right; exact List.mem_cons_of_mem _ h
    · exact pairLeB_trans (le_pairMaxB_left v₀ w) hle
    · intro v hv
      rcases List.mem_cons.mp hv with h | h
      · subst h
        exact pairLeB_trans (le_pairMaxB_right v₀ v) hle
      · exact hub v h

/-- Membership in `allmaxKeys`: exactly the keys whose value is an upper
bound (under `pairLeB`) of all values of the dictionary. -/
theorem allmaxKeys_mem (d : List (String × (Nat × Bool))) (k : String) :
    k ∈ allmaxKeys d ↔ ∃ v, (k, v) ∈ d ∧ ∀ kv ∈ d, pairLeB kv.2 v = true := by
  cases d with
  | nil => simp [allmaxKeys]
  | cons kv₀ rest =>
    obtain ⟨k₀, v₀⟩ := kv₀
    simp only [allmaxKeys]
    obtain ⟨hmem, hle, hub⟩ := foldl_pairMaxB_spec (rest.map (fun kv => kv.2)) v₀
    constructor
    · intro hk
      simp only [List.mem_map, List.mem_filter, decide_eq_true_eq] at hk
      obtain ⟨kv, ⟨hkv_mem, hkv_val⟩, hkv_k⟩ := hk
      refine ⟨(rest.map (fun kv => kv.2)).foldl pairMaxB v₀, ?_, ?_⟩
      · have hkv : kv = (k, (rest.map (fun kv => kv.2)).foldl pairMaxB v₀) := by
          obtain ⟨ka, va⟩ := kv
          simp only at hkv_val hkv_k
          rw [hkv_k, hkv_val]
        exact hkv ▸ hkv_mem
      · intro kv' hkv'
        rcases List.mem_cons.mp hkv' with h | h
        · rw [h]
          exact hle
        · exact hub kv'.2 (List.mem_map.mpr ⟨kv', h, rfl⟩)
    · rintro ⟨v, hv_mem, hv_ub⟩
      have hvm : v = (rest.map (fun kv => kv.2)).foldl pairMaxB v₀ := by
        apply pairLeB_antisymm
        · rcases List.mem_cons.mp hv_mem with h | h
          · have hv' : v = v₀ := (Prod.ext_iff.mp h).2
            rw [hv']
            exact hle
          · exact hub v (List.mem_map.mpr ⟨(k, v), h, rfl⟩)
        · rcases hmem with h | h
          · rw [h]
            exact hv_ub (k₀, v₀) (List.mem_cons_self _ _)
          · obtain ⟨kv, hkv, hkv2⟩ := List.mem_map.mp h
            rw [← hkv2]
            exact hv_ub kv (List.mem_cons_of_mem _ hkv)
      rw [hvm] at hv_mem
      simp only [List.mem_map, List.mem_filter, decide_eq_true_eq]
      exact ⟨(k, (rest.map (fun kv => kv.2)).foldl pairMaxB v₀), ⟨hv_mem, rfl⟩, rfl⟩

/-- **C5**: for a language with candidate key list `ks`, the
disambiguator yields exactly the candidates that pass the
year/title-hint/author filter and whose priority pair
`(max type rank, language-of-description = eng)` is maximal (under the
lexicographic order) among the survivors; no surviving candidate yields
the empty result, and a single surviving candidate yields exactly that
candidate. -/
theorem claim_C5 (rank : String → Nat) (extra : String → List String) (lg : String)
    (ayp : Ayp) (e : String → BibEntry) (lgks : String → Option (List String))
    (ks : List String) (hks : lgks lg = some ks) :
    (∀ k, k ∈ (iter_key_pages rank extra lg ayp e lgks).map Prod.fst ↔
      (k ∈ ks.filter (keyFilter extra ayp e) ∧
        ∀ k' ∈ ks.filter (keyFilter extra ayp e),
          pairLeB (prioPair rank (e k')) (prioPair rank (e k)) = true)) ∧
    (ks.filter (keyFilter extra ayp e) = [] →
      iter_key_pages rank extra lg ayp e lgks = []) ∧
    (∀ k, ks.filter (keyFilter extra ayp e) = [k] →
      iter_key_pages rank extra lg ayp e lgks = [(k, ayp.2.2.1)]) := by
  have hikp : iter_key_pages rank extra lg ayp e lgks =
      (priok rank (ks.filter (keyFilter extra ayp e)) e).map (fun k => (k, ayp.2.2.1)) := by
    simp [iter_key_pages, hks]
  refine ⟨?_, ?_, ?_⟩
  · intro k
    rw [hikp, List.map_map]
    have hid : (Prod.fst ∘ fun k => (k, ayp.2.2.1)) = (id : String → String) := rfl
    rw [hid, List.map_id]
    unfold priok
    rw [allmaxKeys_mem]
    constructor
    · rintro ⟨v, hv_mem, hv_ub⟩
      obtain ⟨k'', hk''_mem, hk''_eq⟩ := List.mem_map.mp hv_mem
      obtain ⟨hke, hve⟩ := Prod.ext_iff.mp hk''_eq
      simp only at hke hve
      subst hke
      refine ⟨hk''_mem, ?_⟩
      intro k' hk'
      rw [hve]
      exact hv_ub (k', prioPair rank (e k')) (List.mem_map.mpr ⟨k', hk', rfl⟩)
    · rintro ⟨hmem, hub⟩
      refine ⟨prioPair rank (e k), List.mem_map.mpr ⟨k, hmem, rfl⟩, ?_⟩
      rintro ⟨k', v'⟩ hkv'
      obtain ⟨k'', hk''_mem, hk''_eq⟩ := List.mem_map.mp hkv'
      obtain ⟨hke, hve⟩ := Prod.ext_iff.mp hk''_eq
      simp only at hke hve ⊢
      rw [← hve]
      exact hub k'' hk''_mem
  · intro h
    simp [hikp, h, priok, allmaxKeys]
  · intro k h
    simp [hikp, h, priok, allmaxKeys]

/-- Witness for C5: among the three fixture candidates with ranks 1, 2, 2
and English flags true, false, true, exactly the rank-2 English entry
`"k3"` is returned. -/
theorem claim_C5_witness :
    "k3" ∈ (iter_key_pages rankW extraW "lg" ("Smith", "1990", none, none) eC5
      lgksC5).map Prod.fst :=
  ((claim_C5 rankW extraW "lg" ("Smith", "1990", none, none) eC5 lgksC5
    ["k1", "k2", "k3"] rfl).1 "k3").mpr (by decide)

/-- **C6 (amended)**: `matchauthor` parses the extracted author string
with the bibliography-name parser and keeps only the **first** parsed
author's lastname; that lastname is split on `&` or `/` (a literal
`" and "` never survives the name parser) into clauses, and the match
succeeds iff every clause's selected token occurs among the candidate
surnames — conjunctive semantics over those clauses.  Both of the claim's
concrete examples hold as stated. -/
theorem claim_C6 :
    matchauthor "Smith & Jones" "Smith, A. and Jones, B." [] = true ∧
    matchauthor "Smith & Jones" "Smith, A." [] = false ∧
    ∀ (a fas : String) (extra : List String),
      matchauthor a fas extra = true ↔
        ∀ ca ∈ reSplit resau (undiacritic ((pauthorLastnames a).headD "")).data,
          ∃ ba ∈ (pauthorLastnames fas).map undiacritic ++ extra,
            matchsingleauthor ca ba = true := by
  refine ⟨by decide, by decide, ?_⟩
  intro a fas extra
  simp only [matchauthor, List.all_eq_true, List.any_eq_true]

/-- Witness for C6: a single-author extracted string matching the single
bibliography author. -/
theorem claim_C6_witness :
    matchauthor "Mueller" "Mueller, H." [] = true :=
  (claim_C6.2.2 "Mueller" "Mueller, H." []).mpr (by decide)

/-- Counterexample to C6 as stated: on the extracted string
`"Smith and Jones"` the code first takes the name parser's first author
(`"Smith"`), so the `" and "`-separated co-author Jones is never checked:
`matchauthor` accepts a bibliography entry naming only Smith, while the
claim's split-the-whole-string procedure rejects it. -/
theorem claim_C6_counterexample :
    matchauthor "Smith and Jones" "Smith, A." [] = true ∧
    matchauthor_claimC6 "Smith and Jones" "Smith, A." [] = false := by
  refine ⟨by decide, by decide⟩

end Pygrambank
